import Mathlib

/-!
Verification development for the `HeteroGATConv` layer of
`cugraph-pyg` (`cugraph_pyg/nn/conv/hetero_gat_conv.py`).

The Python layer is shallowly embedded: tensors become `Mat` (a matrix of
rationals with explicit row/column counts), Python `dict`s become ordered
association lists, fallible operations (`torch.chunk`, dict indexing,
matrix multiplication) return `Except String`, and the process-global
torch random generator becomes an explicit `Nat` state threaded through
the initialization routine.  The external attention kernel
`mha_gat_n2n` is a parameter of `forward`; the adjacency helpers of
`BaseConv` (not part of the sources) and the `torch_geometric` reducer
`group` are modelled from the specification.
-/

set_option maxHeartbeats 1000000
set_option maxRecDepth 4000
set_option synthInstance.maxSize 1000

instance {ε α : Type} [DecidableEq ε] [DecidableEq α] : DecidableEq (Except ε α)
  | .error e1, .error e2 =>
    if h : e1 = e2 then .isTrue (h ▸ rfl) else .isFalse (fun hh => h (Except.error.inj hh))
  | .error _, .ok _ => .isFalse (fun hh => Except.noConfusion hh)
  | .ok _, .error _ => .isFalse (fun hh => Except.noConfusion hh)
  | .ok a1, .ok a2 =>
    if h : a1 = a2 then .isTrue (h ▸ rfl) else .isFalse (fun hh => h (Except.ok.inj hh))

namespace HeteroGAT

/-- Edge type: (source node type, relation label, destination node type). -/
abbrev ET := String × String × String

/-! ### Ordered dictionaries (Python `dict` with insertion order) -/

/-- `d[k]` with a default: Python `defaultdict` access / `dict.get`. -/
def dget {κ α : Type} [DecidableEq κ] (d : List (κ × α)) (k : κ) (dflt : α) : α :=
  match d with
  | [] => dflt
  | p :: ps => if p.1 = k then p.2 else dget ps k dflt

/-- `d[k]` raising `KeyError` when the key is absent. -/
def dgetE {κ α : Type} [DecidableEq κ] (d : List (κ × α)) (k : κ) : Except String α :=
  match d with
  | [] => .error "KeyError"
  | p :: ps => if p.1 = k then .ok p.2 else dgetE ps k

/-- `d[k] = v`: replace the value of an existing key in place (insertion
order is preserved), append the pair when the key is new. -/
def dset {κ α : Type} [DecidableEq κ] (d : List (κ × α)) (k : κ) (v : α) : List (κ × α) :=
  match d with
  | [] => [(k, v)]
  | p :: ps => if p.1 = k then (k, v) :: ps else p :: dset ps k v

/-- The keys of a dictionary, in insertion order. -/
def dkeys {κ α : Type} (d : List (κ × α)) : List κ := d.map Prod.fst

@[simp] theorem dget_nil {κ α : Type} [DecidableEq κ] (k : κ) (dflt : α) :
    dget ([] : List (κ × α)) k dflt = dflt := rfl

theorem dget_cons {κ α : Type} [DecidableEq κ] (p : κ × α) (ps : List (κ × α)) (k : κ) (dflt : α) :
    dget (p :: ps) k dflt = if p.1 = k then p.2 else dget ps k dflt := rfl

@[simp] theorem dget_dset_self {κ α : Type} [DecidableEq κ]
    (d : List (κ × α)) (k : κ) (v : α) (dflt : α) :
    dget (dset d k v) k dflt = v := by
  induction d with
  | nil => simp [dset, dget]
  | cons p ps ih =>
    by_cases h : p.1 = k
    · simp [dset, h, dget]
    · simp [dset, h, dget, ih]

theorem dget_dset_ne {κ α : Type} [DecidableEq κ]
    (d : List (κ × α)) (k k' : κ) (v : α) (dflt : α) (h : k' ≠ k) :
    dget (dset d k v) k' dflt = dget d k' dflt := by
  have h1 : ¬ (k = k') := fun hh => h hh.symm
  induction d with
  | nil =>
    simp only [dset, dget]
    rw [if_neg h1]
  | cons p ps ih =>
    by_cases hp : p.1 = k
    · have h2 : ¬ (p.1 = k') := by rw [hp]; exact h1
      simp only [dset, if_pos hp, dget]
      rw [if_neg h1, if_neg h2]
    · simp only [dset, if_neg hp, dget]
      by_cases hp' : p.1 = k'
      · rw [if_pos hp', if_pos hp']
      · rw [if_neg hp', if_neg hp', ih]

theorem mem_dkeys_cons {κ α : Type} [DecidableEq κ]
    (p : κ × α) (ps : List (κ × α)) (k : κ) (h : k ∈ dkeys (p :: ps)) (hp : ¬ (p.1 = k)) :
    k ∈ dkeys ps := by
  simp only [dkeys, List.map_cons, List.mem_cons] at h
  rcases h with h | h
  · exact absurd h.symm hp
  · exact h

theorem dkeys_dset_of_mem {κ α : Type} [DecidableEq κ]
    (d : List (κ × α)) (k : κ) (v : α) (h : k ∈ dkeys d) :
    dkeys (dset d k v) = dkeys d := by
  induction d with
  | nil => simp [dkeys] at h
  | cons p ps ih =>
    by_cases hp : p.1 = k
    · simp [dset, hp, dkeys]
    · have hmem : k ∈ dkeys ps := mem_dkeys_cons p ps k h hp
      simp only [dset, if_neg hp, dkeys, List.map_cons, List.cons.injEq, true_and]
      exact ih hmem

/-- `dgetE` agrees with `dget` whenever the key is present. -/
theorem dgetE_eq_dget {κ α : Type} [DecidableEq κ]
    (d : List (κ × α)) (k : κ) (dflt : α) (h : k ∈ dkeys d) :
    dgetE d k = .ok (dget d k dflt) := by
  induction d with
  | nil => simp [dkeys] at h
  | cons p ps ih =>
    by_cases hp : p.1 = k
    · simp [dgetE, dget, hp]
    · have hmem : k ∈ dkeys ps := mem_dkeys_cons p ps k h hp
      simp only [dgetE, dget, if_neg hp]
      exact ih hmem

/-! ### The relation index (`relations_per_ntype`) -/

/-- One pass of the `for edge_type in self.edge_types` loop of
`HeteroGATConv.__init__`: append `edge_type` to the source list of its
source node type and, when the endpoints differ, to the destination list
of its destination node type. -/
def relStep (d : List (String × (List ET × List ET))) (e : ET) :
    List (String × (List ET × List ET)) :=
  let s := e.1
  let dt := e.2.2
  let cur := dget d s ([], [])
  let d1 := dset d s (cur.1 ++ [e], cur.2)
  if dt ≠ s then
    let cur2 := dget d1 dt ([], [])
    dset d1 dt (cur2.1, cur2.2 ++ [e])
  else d1

/-- `self.relations_per_ntype` as built by `__init__` (a
`defaultdict(lambda: ([], []))` filled by iterating `edge_types`). -/
def buildRelations (edge_types : List ET) : List (String × (List ET × List ET)) :=
  edge_types.foldl relStep []

/-- Lookup into the relation index; missing node types give `([], [])`
exactly as the `defaultdict` does. -/
def relations_per_ntype (edge_types : List ET) (nt : String) : List ET × List ET :=
  dget (buildRelations edge_types) nt ([], [])

/-- Source-relation list of a node type. -/
def srcRels (edge_types : List ET) (nt : String) : List ET :=
  (relations_per_ntype edge_types nt).1

/-- Destination-relation list of a node type. -/
def dstRels (edge_types : List ET) (nt : String) : List ET :=
  (relations_per_ntype edge_types nt).2

/-- `n_rel`: number of relations incident to a node type. -/
def nRel (edge_types : List ET) (nt : String) : Nat :=
  (srcRels edge_types nt).length + (dstRels edge_types nt).length

theorem dget_relStep (d : List (String × (List ET × List ET))) (e : ET) (nt : String) :
    dget (relStep d e) nt ([], []) =
      ((dget d nt ([], [])).1 ++ if e.1 = nt then [e] else [],
       (dget d nt ([], [])).2 ++ if e.2.2 = nt ∧ e.1 ≠ e.2.2 then [e] else []) := by
  by_cases hsd : e.2.2 = e.1
  · -- same endpoints: only the source list is touched
    have hcond : ¬ (e.2.2 ≠ e.1) := by simp [hsd]
    have hne2 : ¬ (e.1 ≠ e.2.2) := by simp [hsd]
    simp only [relStep, if_neg hcond]
    by_cases hs : e.1 = nt
    · subst hs
      rw [dget_dset_self]
      simp [hne2]
    · have hns : nt ≠ e.1 := fun hh => hs hh.symm
      rw [dget_dset_ne d e.1 nt _ _ hns]
      simp [hs, hne2]
  · -- distinct endpoints
    have hcond : e.2.2 ≠ e.1 := hsd
    simp only [relStep, if_pos hcond]
    by_cases hs : e.1 = nt
    · subst hs
      have hne : e.1 ≠ e.2.2 := fun hh => hsd hh.symm
      rw [dget_dset_ne _ e.2.2 e.1 _ _ hne]
      rw [dget_dset_self]
      simp [hsd]
    · by_cases hdt : e.2.2 = nt
      · subst hdt
        have hne : e.1 ≠ e.2.2 := fun hh => hsd hh.symm
        rw [dget_dset_self]
        rw [dget_dset_ne _ e.1 e.2.2 _ _ hsd]
        simp [hs, hne]
      · rw [dget_dset_ne _ e.2.2 nt _ _ (fun hh => hdt hh.symm),
            dget_dset_ne _ e.1 nt _ _ (fun hh => hs hh.symm)]
        simp [hs, hdt]

theorem foldl_relStep_char (ets : List ET) :
    ∀ d nt, dget (ets.foldl relStep d) nt ([], []) =
      ((dget d nt ([], [])).1 ++ ets.filter (fun e => e.1 = nt),
       (dget d nt ([], [])).2 ++ ets.filter (fun e => e.2.2 = nt ∧ e.1 ≠ e.2.2)) := by
  induction ets with
  | nil => intro d nt; simp
  | cons e rest ih =>
    intro d nt
    simp only [List.foldl_cons]
    rw [ih, dget_relStep]
    clear ih
    by_cases hA : e.1 = nt <;> by_cases hC : e.2.2 = nt <;> by_cases hD : e.1 = e.2.2 <;>
      simp_all [List.filter_cons]

/-- The source list of `nt` collects, in order, exactly the edge types
whose source endpoint is `nt`. -/
theorem srcRels_char (ets : List ET) (nt : String) :
    srcRels ets nt = ets.filter (fun e => e.1 = nt) := by
  have h := foldl_relStep_char ets [] nt
  simp only [srcRels, relations_per_ntype, buildRelations, h]
  simp

/-- The destination list of `nt` collects, in order, exactly the edge
types whose destination endpoint is `nt` and whose endpoints differ. -/
theorem dstRels_char (ets : List ET) (nt : String) :
    dstRels ets nt = ets.filter (fun e => e.2.2 = nt ∧ e.1 ≠ e.2.2) := by
  have h := foldl_relStep_char ets [] nt
  simp only [dstRels, relations_per_ntype, buildRelations, h]
  simp

/-! ### Tensors and `torch.chunk` -/

/-- A 2-D tensor of rationals.  `torch.empty` values are modelled as zeros;
every entry the layer ever reads is overwritten by `reset_parameters`
before use. -/
structure Mat where
  nrows : Nat
  ncols : Nat
  data : List (List ℚ)
deriving DecidableEq

/-- `tensor.size(dim)` for the two dimensions the layer uses. -/
def Mat.sizeDim (m : Mat) (dim : Nat) : Nat := if dim = 0 then m.nrows else m.ncols

/-- Number of pieces `torch.split` returns: `ceil(size / split_size)`,
but at least one. -/
def numSplits (size s : Nat) : Nat := max ((size + s - 1) / s) 1

/-- `torch.split(m, s, dim)`: pieces of size `s` along `dim`, the last one
possibly smaller. -/
def matSplit (m : Mat) (s : Nat) (dim : Nat) : List Mat :=
  if dim = 0 then
    (List.range (numSplits m.nrows s)).map fun i =>
      Mat.mk (min s (m.nrows - i * s)) m.ncols ((m.data.drop (i * s)).take s)
  else
    (List.range (numSplits m.ncols s)).map fun i =>
      Mat.mk m.nrows (min s (m.ncols - i * s)) (m.data.map fun row => (row.drop (i * s)).take s)

/-- `torch.chunk(m, chunks, dim)`: raises unless `chunks > 0`, otherwise
splits with split size `ceil(size(dim) / chunks)`. -/
def matChunk (m : Mat) (chunks : Nat) (dim : Nat) : Except String (List Mat) :=
  if chunks = 0 then .error "chunk expects chunks to be greater than 0"
  else .ok (matSplit m ((m.sizeDim dim + chunks - 1) / chunks) dim)

/-- The `i`-th of the equal-size chunks of width `k` along `dim`. -/
def pieceAt (m : Mat) (dim i k : Nat) : Mat :=
  if dim = 0 then Mat.mk k m.ncols ((m.data.drop (i * k)).take k)
  else Mat.mk m.nrows k (m.data.map fun row => (row.drop (i * k)).take k)

theorem ceilDiv_mul (c k : Nat) (hc : 0 < c) (hk : 0 < k) :
    (c * k + c - 1) / c = k := by
  apply Nat.div_eq_of_lt_le
  · rw [Nat.mul_comm k c]; omega
  · rw [Nat.succ_mul, Nat.mul_comm k c]; omega

theorem numSplits_mul (c k : Nat) (hc : 0 < c) (hk : 0 < k) :
    numSplits (c * k) k = c := by
  unfold numSplits
  have h2 : (c * k + k - 1) / k = c := by
    apply Nat.div_eq_of_lt_le
    · omega
    · rw [Nat.succ_mul]; omega
  rw [h2]
  exact Nat.max_eq_left hc

/-- On a tensor whose `dim`-size is exactly `chunks * k` (with both factors
positive), `torch.chunk` yields exactly `chunks` pieces of size `k`, the
`i`-th being the contiguous slice starting at offset `i * k`. -/
theorem matChunk_divisible (m : Mat) (c k dim : Nat) (hc : 0 < c) (hk : 0 < k)
    (h : m.sizeDim dim = c * k) :
    matChunk m c dim = .ok ((List.range c).map fun i => pieceAt m dim i k) := by
  have hc0 : ¬ (c = 0) := by omega
  unfold matChunk
  rw [if_neg hc0, h, ceilDiv_mul c k hc hk]
  congr 1
  unfold matSplit pieceAt
  by_cases hdim : dim = 0
  · simp only [if_pos hdim]
    have hn : m.nrows = c * k := by rw [← h]; simp [Mat.sizeDim, hdim]
    rw [hn, numSplits_mul c k hc hk]
    apply List.map_congr_left
    intro i hi
    have hic : i < c := List.mem_range.mp hi
    have hmin : min k (c * k - i * k) = k := by
      apply Nat.min_eq_left
      rw [← Nat.sub_mul]
      exact Nat.le_mul_of_pos_left k (by omega)
    rw [hmin]
  · simp only [if_neg hdim]
    have hn : m.ncols = c * k := by rw [← h]; simp [Mat.sizeDim, hdim]
    rw [hn, numSplits_mul c k hc hk]
    apply List.map_congr_left
    intro i hi
    have hic : i < c := List.mem_range.mp hi
    have hmin : min k (c * k - i * k) = k := by
      apply Nat.min_eq_left
      rw [← Nat.sub_mul]
      exact Nat.le_mul_of_pos_left k (by omega)
    rw [hmin]

/-! ### The layer and `split_tensors` -/

/-- The state of a constructed `HeteroGATConv` layer: configuration plus
parameter tensors.  `bias` is `none` when the layer was built with
`bias=False` (the module attribute is `None`); otherwise it maps each edge
type to its (optional) bias vector. -/
structure Layer where
  in_channels : List (String × Nat)
  out_channels : Nat
  node_types : List String
  edge_types : List ET
  num_heads : Nat
  concat_heads : Bool
  negative_slope : ℚ
  aggr : String
  lin_weights : List (String × Mat)
  attn_weights : List (ET × List ℚ)
  bias : Option (List (ET × Option (List ℚ)))
deriving DecidableEq

/-- Dictionaries keyed by edge type holding optional tensors, as produced
by `dict.fromkeys(self.edge_types)` and filled by `split_tensors`. -/
abbrev OD := List (ET × Option Mat)

/-- The `for i, rel in enumerate(...)` assignment loops of `split_tensors`:
`x_dict[rel] = t_list[off + i]`, raising `IndexError` when the chunk list
is too short. -/
def assignChunks : OD → List ET → List Mat → Nat → Except String OD
  | d, [], _, _ => .ok d
  | d, r :: rs, tl, off =>
    match tl.get? off with
    | none => .error "IndexError: list index out of range"
    | some c => assignChunks (dset d r (some c)) rs tl (off + 1)

/-- Processing of one `(ntype, t)` entry of `x_fused_dict` inside
`split_tensors`: chunk `t` into `n_rel` pieces along `dim` and route the
first `n_src` pieces to the source dict, the rest to the destination
dict. -/
def splitStep (edge_types : List ET) (dim : Nat) (acc : OD × OD) (p : String × Mat) :
    Except String (OD × OD) := do
  let n_src := (srcRels edge_types p.1).length
  let n_rel := n_src + (dstRels edge_types p.1).length
  let tl ← matChunk p.2 n_rel dim
  let ws ← assignChunks acc.1 (srcRels edge_types p.1) tl 0
  let wd ← assignChunks acc.2 (dstRels edge_types p.1) tl n_src
  pure (ws, wd)

/-- `HeteroGATConv.split_tensors`: split each node type's fused tensor
into per-relation chunks, keyed by edge type.  Both result dicts start as
`dict.fromkeys(self.edge_types)`. -/
def split_tensors (L : Layer) (x_fused_dict : List (String × Mat)) (dim : Nat) :
    Except String (OD × OD) :=
  x_fused_dict.foldlM (splitStep L.edge_types dim)
    (L.edge_types.map fun e => (e, none), L.edge_types.map fun e => (e, none))

/-! ### Characterization of `split_tensors` -/

theorem srcRels_subset {ets : List ET} {nt : String} {e : ET}
    (h : e ∈ srcRels ets nt) : e ∈ ets := by
  rw [srcRels_char] at h
  exact List.mem_of_mem_filter h

theorem dstRels_subset {ets : List ET} {nt : String} {e : ET}
    (h : e ∈ dstRels ets nt) : e ∈ ets := by
  rw [dstRels_char] at h
  exact List.mem_of_mem_filter h

theorem srcRels_nodup {ets : List ET} (h : ets.Nodup) (nt : String) :
    (srcRels ets nt).Nodup := by
  rw [srcRels_char]; exact h.filter _

theorem dstRels_nodup {ets : List ET} (h : ets.Nodup) (nt : String) :
    (dstRels ets nt).Nodup := by
  rw [dstRels_char]; exact h.filter _

theorem mem_srcRels_src {ets : List ET} {nt : String} {e : ET}
    (h : e ∈ srcRels ets nt) : e.1 = nt := by
  rw [srcRels_char] at h
  simpa using (List.of_mem_filter h)

theorem mem_dstRels_dst {ets : List ET} {nt : String} {e : ET}
    (h : e ∈ dstRels ets nt) : e.2.2 = nt ∧ e.1 ≠ e.2.2 := by
  rw [dstRels_char] at h
  simpa using (List.of_mem_filter h)

theorem assignChunks_char (tl : List Mat) :
    ∀ (rels : List ET) (d : OD) (off : Nat),
      rels.Nodup → (∀ e ∈ rels, e ∈ dkeys d) → off + rels.length ≤ tl.length →
      ∃ d2, assignChunks d rels tl off = .ok d2 ∧ dkeys d2 = dkeys d ∧
        (∀ i e, rels.get? i = some e → dget d2 e none = tl.get? (off + i)) ∧
        (∀ e, e ∉ rels → dget d2 e none = dget d e none) := by
  intro rels
  induction rels with
  | nil =>
    intro d off _ _ _
    refine ⟨d, rfl, rfl, ?_, ?_⟩
    · intro i e h; simp at h
    · intro e _; rfl
  | cons r rs ih =>
    intro d off hnd hmem hlen
    have hofflt : off < tl.length := by
      simp only [List.length_cons] at hlen; omega
    have hc : tl.get? off = some (tl.get ⟨off, hofflt⟩) := List.get?_eq_get hofflt
    obtain ⟨hr, hrs⟩ := List.nodup_cons.mp hnd
    have hmemr : r ∈ dkeys d := hmem r (List.mem_cons_self r rs)
    have hmem' : ∀ e ∈ rs, e ∈ dkeys (dset d r (some (tl.get ⟨off, hofflt⟩))) := by
      intro e he
      rw [dkeys_dset_of_mem d r _ hmemr]
      exact hmem e (List.mem_cons_of_mem r he)
    have hlen' : (off + 1) + rs.length ≤ tl.length := by
      simp only [List.length_cons] at hlen; omega
    obtain ⟨d2, hok, hkeys, hset, hunch⟩ :=
      ih (dset d r (some (tl.get ⟨off, hofflt⟩))) (off + 1) hrs hmem' hlen'
    refine ⟨d2, ?_, ?_, ?_, ?_⟩
    · simp only [assignChunks, hc]
      exact hok
    · rw [hkeys, dkeys_dset_of_mem d r _ hmemr]
    · intro i e hget
      cases i with
      | zero =>
        have he : r = e := by simpa using hget
        subst he
        rw [hunch r hr, dget_dset_self, Nat.add_zero, hc]
      | succ n =>
        have hg : rs.get? n = some e := by simpa using hget
        have := hset n e hg
        rw [show off + (n + 1) = (off + 1) + n by omega]
        exact this
    · intro e he
      have hne : e ∉ rs := fun h => he (List.mem_cons_of_mem r h)
      have hner : e ≠ r := fun h => he (h ▸ List.mem_cons_self r rs)
      rw [hunch e hne, dget_dset_ne d r e _ _ hner]

theorem assignChunks_ok_inv (tl : List Mat) :
    ∀ (rels : List ET) (d d2 : OD) (off : Nat),
      assignChunks d rels tl off = .ok d2 →
      (∀ e ∈ rels, e ∈ dkeys d) →
      dkeys d2 = dkeys d ∧ (∀ e, e ∉ rels → dget d2 e none = dget d e none) := by
  intro rels
  induction rels with
  | nil =>
    intro d d2 off h _
    simp only [assignChunks] at h
    cases h
    exact ⟨rfl, fun e _ => rfl⟩
  | cons r rs ih =>
    intro d d2 off h hmem
    cases hg : tl.get? off with
    | none =>
      simp only [assignChunks, hg] at h
      exact absurd h (by simp)
    | some c =>
      simp only [assignChunks, hg] at h
      have hmemr : r ∈ dkeys d := hmem r (List.mem_cons_self r rs)
      have hmem' : ∀ e ∈ rs, e ∈ dkeys (dset d r (some c)) := by
        intro e he
        rw [dkeys_dset_of_mem d r _ hmemr]
        exact hmem e (List.mem_cons_of_mem r he)
      obtain ⟨hkeys, hunch⟩ := ih (dset d r (some c)) d2 (off + 1) h hmem'
      constructor
      · rw [hkeys, dkeys_dset_of_mem d r _ hmemr]
      · intro e he
        have hne : e ∉ rs := fun hh => he (List.mem_cons_of_mem r hh)
        have hner : e ≠ r := fun hh => he (hh ▸ List.mem_cons_self r rs)
        rw [hunch e hne, dget_dset_ne d r e _ _ hner]

theorem dget_initOD (ets : List ET) (e : ET) :
    dget (ets.map fun e0 => (e0, (none : Option Mat))) e none = none := by
  induction ets with
  | nil => rfl
  | cons a rest ih =>
    simp only [List.map_cons, dget_cons]
    by_cases h : a = e <;> simp [h, ih]

theorem dkeys_initOD (ets : List ET) :
    dkeys (ets.map fun e0 => (e0, (none : Option Mat))) = ets := by
  simp only [dkeys, List.map_map]
  have h : (Prod.fst ∘ fun e0 : ET => (e0, (none : Option Mat))) = id := rfl
  rw [h, List.map_id]

theorem splitStep_char (ets : List ET) (dim k : Nat) (hk : 0 < k) (hnd : ets.Nodup)
    (acc : OD × OD) (nt : String) (t : Mat)
    (hka : dkeys acc.1 = ets) (hkb : dkeys acc.2 = ets)
    (hrel : 0 < nRel ets nt) (hsz : t.sizeDim dim = nRel ets nt * k) :
    ∃ ws wd, splitStep ets dim acc (nt, t) = .ok (ws, wd) ∧
      dkeys ws = ets ∧ dkeys wd = ets ∧
      (∀ i e, (srcRels ets nt).get? i = some e → dget ws e none = some (pieceAt t dim i k)) ∧
      (∀ j e, (dstRels ets nt).get? j = some e →
          dget wd e none = some (pieceAt t dim ((srcRels ets nt).length + j) k)) ∧
      (∀ e, e ∉ srcRels ets nt → dget ws e none = dget acc.1 e none) ∧
      (∀ e, e ∉ dstRels ets nt → dget wd e none = dget acc.2 e none) := by
  have hchunk := matChunk_divisible t (nRel ets nt) k dim hrel hk hsz
  have htllen : ((List.range (nRel ets nt)).map fun i => pieceAt t dim i k).length
      = nRel ets nt := by simp
  have hgettl : ∀ i, i < nRel ets nt →
      ((List.range (nRel ets nt)).map fun i => pieceAt t dim i k).get? i
        = some (pieceAt t dim i k) := by
    intro i hi
    rw [List.get?_map, List.get?_range hi]
    rfl
  obtain ⟨ws, hws, hkws, hsetws, hunws⟩ :=
    assignChunks_char ((List.range (nRel ets nt)).map fun i => pieceAt t dim i k)
      (srcRels ets nt) acc.1 0 (srcRels_nodup hnd nt)
      (fun e he => by rw [hka]; exact srcRels_subset he)
      (by rw [htllen]; simp only [nRel]; omega)
  obtain ⟨wd, hwd, hkwd, hsetwd, hunwd⟩ :=
    assignChunks_char ((List.range (nRel ets nt)).map fun i => pieceAt t dim i k)
      (dstRels ets nt) acc.2 (srcRels ets nt).length (dstRels_nodup hnd nt)
      (fun e he => by rw [hkb]; exact dstRels_subset he)
      (by rw [htllen]; simp only [nRel]; omega)
  refine ⟨ws, wd, ?_, by rwa [hkws], by rwa [hkwd], ?_, ?_, hunws, hunwd⟩
  · simp only [splitStep]
    rw [show (srcRels ets nt).length + (dstRels ets nt).length = nRel ets nt from rfl,
        hchunk]
    simp only [bind, Except.bind]
    rw [hws]
    simp only [Except.bind]
    rw [hwd]
    simp only [Except.bind]
    rfl
  · intro i e hget
    have hi : i < (srcRels ets nt).length := by
      by_contra hcon
      have hnone : (srcRels ets nt).get? i = none := List.get?_eq_none.mpr (by omega)
      rw [hnone] at hget; cases hget
    have hlt : i < nRel ets nt := by simp only [nRel]; omega
    rw [hsetws i e hget, Nat.zero_add, hgettl i hlt]
  · intro j e hget
    have hj : j < (dstRels ets nt).length := by
      by_contra hcon
      have hnone : (dstRels ets nt).get? j = none := List.get?_eq_none.mpr (by omega)
      rw [hnone] at hget; cases hget
    have hlt : (srcRels ets nt).length + j < nRel ets nt := by simp only [nRel]; omega
    rw [hsetwd j e hget, hgettl _ hlt]

theorem split_fold_char (ets : List ET) (dim k : Nat) (hk : 0 < k) (hnd : ets.Nodup) :
    ∀ (d : List (String × Mat)) (acc : OD × OD),
      dkeys acc.1 = ets → dkeys acc.2 = ets → (dkeys d).Nodup →
      (∀ p ∈ d, 0 < nRel ets p.1 ∧ p.2.sizeDim dim = nRel ets p.1 * k) →
      ∃ ws wd, d.foldlM (splitStep ets dim) acc = .ok (ws, wd) ∧
        dkeys ws = ets ∧ dkeys wd = ets ∧
        (∀ p ∈ d,
          (∀ i e, (srcRels ets p.1).get? i = some e →
            dget ws e none = some (pieceAt p.2 dim i k)) ∧
          (∀ j e, (dstRels ets p.1).get? j = some e →
            dget wd e none = some (pieceAt p.2 dim ((srcRels ets p.1).length + j) k))) ∧
        (∀ e, (∀ nt ∈ dkeys d, e ∉ srcRels ets nt) → dget ws e none = dget acc.1 e none) ∧
        (∀ e, (∀ nt ∈ dkeys d, e ∉ dstRels ets nt) → dget wd e none = dget acc.2 e none) := by
  intro d
  induction d with
  | nil =>
    intro acc hka hkb _ _
    exact ⟨acc.1, acc.2, rfl, hka, hkb, by simp, fun e _ => rfl, fun e _ => rfl⟩
  | cons p rest ih =>
    intro acc hka hkb hdk hd
    obtain ⟨hrel, hsz⟩ := hd p (List.mem_cons_self p rest)
    obtain ⟨ws1, wd1, hstep, hk1, hk2, hsets, hsetd, hun1, hun2⟩ :=
      splitStep_char ets dim k hk hnd acc p.1 p.2 hka hkb hrel hsz
    have hdk' : (p.1 :: dkeys rest).Nodup := by simpa [dkeys] using hdk
    obtain ⟨hp1, hrestnd⟩ := List.nodup_cons.mp hdk'
    obtain ⟨ws, wd, hfold, hkws, hkwd, hassign, hunw, hund⟩ :=
      ih (ws1, wd1) hk1 hk2 hrestnd (fun q hq => hd q (List.mem_cons_of_mem p hq))
    refine ⟨ws, wd, ?_, hkws, hkwd, ?_, ?_, ?_⟩
    · rw [List.foldlM_cons, hstep]
      simp only [bind, Except.bind]
      exact hfold
    · intro q hq
      rcases List.mem_cons.mp hq with hq | hq
      · subst hq
        constructor
        · intro i e hget
          have hmem : e ∈ srcRels ets q.1 := List.get?_mem hget
          have hsrc : e.1 = q.1 := mem_srcRels_src hmem
          have hw : dget ws e none = dget ws1 e none := by
            apply hunw
            intro nt hnt hmem2
            have : e.1 = nt := mem_srcRels_src hmem2
            rw [hsrc] at this
            exact hp1 (this ▸ hnt)
          rw [hw]
          exact hsets i e hget
        · intro j e hget
          have hmem : e ∈ dstRels ets q.1 := List.get?_mem hget
          have hdst : e.2.2 = q.1 := (mem_dstRels_dst hmem).1
          have hw : dget wd e none = dget wd1 e none := by
            apply hund
            intro nt hnt hmem2
            have : e.2.2 = nt := (mem_dstRels_dst hmem2).1
            rw [hdst] at this
            exact hp1 (this ▸ hnt)
          rw [hw]
          exact hsetd j e hget
      · exact hassign q hq
    · intro e he
      have h1 : dget ws e none = dget ws1 e none := by
        apply hunw
        intro nt hnt
        exact he nt (by simp [dkeys]; right; simpa [dkeys] using hnt)
      rw [h1]
      exact hun1 e (he p.1 (by simp [dkeys]))
    · intro e he
      have h1 : dget wd e none = dget wd1 e none := by
        apply hund
        intro nt hnt
        exact he nt (by simp [dkeys]; right; simpa [dkeys] using hnt)
      rw [h1]
      exact hun2 e (he p.1 (by simp [dkeys]))

/-- Divisible-case characterization of `split_tensors` itself. -/
theorem split_tensors_char (L : Layer) (d : List (String × Mat)) (dim k : Nat)
    (hk : 0 < k) (hnd : L.edge_types.Nodup) (hdk : (dkeys d).Nodup)
    (hd : ∀ p ∈ d, 0 < nRel L.edge_types p.1 ∧ p.2.sizeDim dim = nRel L.edge_types p.1 * k) :
    ∃ ws wd, split_tensors L d dim = .ok (ws, wd) ∧
      dkeys ws = L.edge_types ∧ dkeys wd = L.edge_types ∧
      (∀ p ∈ d,
        (∀ i e, (srcRels L.edge_types p.1).get? i = some e →
          dget ws e none = some (pieceAt p.2 dim i k)) ∧
        (∀ j e, (dstRels L.edge_types p.1).get? j = some e →
          dget wd e none
            = some (pieceAt p.2 dim ((srcRels L.edge_types p.1).length + j) k))) ∧
      (∀ e, (∀ nt ∈ dkeys d, e ∉ srcRels L.edge_types nt) → dget ws e none = none) ∧
      (∀ e, (∀ nt ∈ dkeys d, e ∉ dstRels L.edge_types nt) → dget wd e none = none) := by
  obtain ⟨ws, wd, hfold, hkws, hkwd, hassign, hunw, hund⟩ :=
    split_fold_char L.edge_types dim k hk hnd d
      (L.edge_types.map fun e => (e, none), L.edge_types.map fun e => (e, none))
      (dkeys_initOD _) (dkeys_initOD _) hdk hd
  refine ⟨ws, wd, hfold, hkws, hkwd, hassign, ?_, ?_⟩
  · intro e he
    rw [hunw e he]
    exact dget_initOD _ _
  · intro e he
    rw [hund e he]
    exact dget_initOD _ _

theorem splitStep_ok_inv (ets : List ET) (dim : Nat) (acc : OD × OD) (p : String × Mat)
    (res : OD × OD) (h : splitStep ets dim acc p = .ok res)
    (hka : dkeys acc.1 = ets) (hkb : dkeys acc.2 = ets) :
    dkeys res.1 = ets ∧ dkeys res.2 = ets ∧
    (∀ e, e ∉ srcRels ets p.1 → dget res.1 e none = dget acc.1 e none) ∧
    (∀ e, e ∉ dstRels ets p.1 → dget res.2 e none = dget acc.2 e none) := by
  cases hchunk : matChunk p.2 ((srcRels ets p.1).length + (dstRels ets p.1).length) dim with
  | error s =>
    simp only [splitStep, hchunk, bind, Except.bind] at h
    exact absurd h (by simp)
  | ok tl =>
    cases hws : assignChunks acc.1 (srcRels ets p.1) tl 0 with
    | error s =>
      simp only [splitStep, hchunk, hws, bind, Except.bind] at h
      exact absurd h (by simp)
    | ok ws =>
      cases hwd : assignChunks acc.2 (dstRels ets p.1) tl (srcRels ets p.1).length with
      | error s =>
        simp only [splitStep, hchunk, hws, hwd, bind, Except.bind] at h
        exact absurd h (by simp)
      | ok wd =>
        have hres : res = (ws, wd) := by
          simp only [splitStep, hchunk, hws, hwd, bind, Except.bind, pure] at h
          exact (Except.ok.inj h).symm
        subst hres
        obtain ⟨hkws, hunws⟩ := assignChunks_ok_inv tl (srcRels ets p.1) acc.1 ws 0 hws
          (fun e he => by rw [hka]; exact srcRels_subset he)
        obtain ⟨hkwd, hunwd⟩ := assignChunks_ok_inv tl (dstRels ets p.1) acc.2 wd
          (srcRels ets p.1).length hwd
          (fun e he => by rw [hkb]; exact dstRels_subset he)
        exact ⟨by rw [hkws, hka], by rw [hkwd, hkb], hunws, hunwd⟩

theorem split_fold_inv (ets : List ET) (dim : Nat) :
    ∀ (d : List (String × Mat)) (acc : OD × OD) (ws wd : OD),
      d.foldlM (splitStep ets dim) acc = .ok (ws, wd) →
      dkeys acc.1 = ets → dkeys acc.2 = ets →
      dkeys ws = ets ∧ dkeys wd = ets ∧
      (∀ e, (∀ nt ∈ dkeys d, e ∉ srcRels ets nt) → dget ws e none = dget acc.1 e none) ∧
      (∀ e, (∀ nt ∈ dkeys d, e ∉ dstRels ets nt) → dget wd e none = dget acc.2 e none) := by
  intro d
  induction d with
  | nil =>
    intro acc ws wd h hka hkb
    simp only [List.foldlM_nil] at h
    have : acc = (ws, wd) := Except.ok.inj h
    subst this
    exact ⟨hka, hkb, fun e _ => rfl, fun e _ => rfl⟩
  | cons p rest ih =>
    intro acc ws wd h hka hkb
    rw [List.foldlM_cons] at h
    cases hstep : splitStep ets dim acc p with
    | error s =>
      rw [hstep] at h
      simp only [bind, Except.bind] at h
      exact absurd h (by simp)
    | ok acc1 =>
      rw [hstep] at h
      simp only [bind, Except.bind] at h
      obtain ⟨hs1, hs2, hsu1, hsu2⟩ := splitStep_ok_inv ets dim acc p acc1 hstep hka hkb
      obtain ⟨hkws, hkwd, hunw, hund⟩ := ih acc1 ws wd h hs1 hs2
      refine ⟨hkws, hkwd, ?_, ?_⟩
      · intro e he
        have h1 : dget ws e none = dget acc1.1 e none := by
          apply hunw
          intro nt hnt
          exact he nt (by simp only [dkeys, List.map_cons, List.mem_cons]; right; exact hnt)
        rw [h1]
        exact hsu1 e (he p.1 (by simp [dkeys]))
      · intro e he
        have h1 : dget wd e none = dget acc1.2 e none := by
          apply hund
          intro nt hnt
          exact he nt (by simp only [dkeys, List.map_cons, List.mem_cons]; right; exact hnt)
        rw [h1]
        exact hsu2 e (he p.1 (by simp [dkeys]))

/-- Success-conditioned invariant of `split_tensors`: both dicts keep
exactly the construction-time edge-type key set; a same-type relation
never receives a destination chunk; entries whose relevant node type is
absent from the input dict remain `None`. -/
theorem split_tensors_ok_inv (L : Layer) (d : List (String × Mat)) (dim : Nat)
    (ws wd : OD) (h : split_tensors L d dim = .ok (ws, wd)) :
    dkeys ws = L.edge_types ∧ dkeys wd = L.edge_types ∧
    (∀ e, e.1 = e.2.2 → dget wd e none = none) ∧
    (∀ e, e.1 ∉ dkeys d → dget ws e none = none) ∧
    (∀ e, e.2.2 ∉ dkeys d → dget wd e none = none) := by
  obtain ⟨hkws, hkwd, hunw, hund⟩ :=
    split_fold_inv L.edge_types dim d
      (L.edge_types.map fun e => (e, none), L.edge_types.map fun e => (e, none))
      ws wd h (dkeys_initOD _) (dkeys_initOD _)
  refine ⟨hkws, hkwd, ?_, ?_, ?_⟩
  · intro e he
    have hcl : ∀ nt ∈ dkeys d, e ∉ dstRels L.edge_types nt := by
      intro nt _ hmem
      exact (mem_dstRels_dst hmem).2 he
    rw [hund e hcl]
    exact dget_initOD _ _
  · intro e he
    have hcl : ∀ nt ∈ dkeys d, e ∉ srcRels L.edge_types nt := by
      intro nt hnt hmem
      exact he ((mem_srcRels_src hmem) ▸ hnt)
    rw [hunw e hcl]
    exact dget_initOD _ _
  · intro e he
    have hcl : ∀ nt ∈ dkeys d, e ∉ dstRels L.edge_types nt := by
      intro nt hnt hmem
      exact he ((mem_dstRels_dst hmem).1 ▸ hnt)
    rw [hund e hcl]
    exact dget_initOD _ _

/-! ### Random generator and parameter initialization -/

/-- Modulus of the modelled global torch random generator state (kept
small so that rational arithmetic over generator outputs evaluates
cheaply; the claims depend only on determinism and seed-injectivity of
the generator, not on its word size). -/
def rngM : Nat := 256

/-- One step of the modelled global generator (a linear congruential
generator with odd multiplier, standing in for torch's Mersenne twister /
Philox; the claims verified here depend only on determinism and
seed-injectivity). -/
def rngNext (s : Nat) : Nat := (37 * s + 19) % rngM

/-- `torch.manual_seed(seed)`: overwrite the global generator state. -/
def manualSeed (s : Nat) : Nat := s % rngM

/-- One uniform draw in `(-scale, scale)`.  The true Glorot draw is
uniform on `(-sqrt(6/fan), sqrt(6/fan))`; since that bound is irrational
the embedding uses `scale = 6/fan` as the (injective, fan-determined)
bound.  No claim depends on the numeric value of the bound, only on
which `fan` it is computed from. -/
def drawUniform (scale : ℚ) (s : Nat) : ℚ × Nat :=
  let r := rngNext s
  (scale * (2 * (r : ℚ) / (rngM : ℚ) - 1), r)

/-- Fill `count` scalar slots from the generator, in storage order. -/
def glorotFill (s : Nat) (count : Nat) (scale : ℚ) : List ℚ × Nat :=
  match count with
  | 0 => ([], s)
  | n + 1 =>
    let v := drawUniform scale s
    let rest := glorotFill v.2 n scale
    (v.1 :: rest.1, rest.2)

/-- Regroup a flat value list into `nrows` rows of `ncols`. -/
def rowsOf (vs : List ℚ) (ncols nrows : Nat) : List (List ℚ) :=
  (List.range nrows).map fun i => (vs.drop (i * ncols)).take ncols

/-- `torch_geometric.nn.inits.glorot` on a 2-D tensor: the fan is
`size(-2) + size(-1)`, i.e. rows + columns. -/
def glorotMat (s : Nat) (m : Mat) : Mat × Nat :=
  let fill := glorotFill s (m.nrows * m.ncols) (6 / ((m.nrows : ℚ) + (m.ncols : ℚ)))
  (Mat.mk m.nrows m.ncols (rowsOf fill.1 m.ncols m.nrows), fill.2)

/-- `glorot(value)` where `value` may be `None`: the library silently
ignores non-tensor arguments, so `None` is a no-op. -/
def glorotOpt (s : Nat) : Option Mat → Option Mat × Nat
  | none => (none, s)
  | some m => ((glorotMat s m).1, (glorotMat s m).2)

/-- `glorot(attn.view(-1, heads, out_channels))`: the view fails unless
`heads * out_channels` divides the length; the fan of the viewed tensor
is `size(-2) + size(-1) = heads + out_channels`; the draw fills the
shared storage in order. -/
def attnGlorot (s : Nat) (v : List ℚ) (h o : Nat) : Except String (List ℚ × Nat) :=
  if h * o = 0 then .error "cannot infer view size"
  else if v.length % (h * o) ≠ 0 then .error "shape invalid for input size"
  else .ok (glorotFill s v.length (6 / ((h : ℚ) + (o : ℚ))))

/-- `torch_geometric.nn.inits.zeros` on an optional tensor. -/
def zerosOpt : Option (List ℚ) → Option (List ℚ)
  | none => none
  | some v => some (List.replicate v.length 0)

/-- Mutable state of the `for edge_type in self.edge_types` loop of
`reset_parameters`: the chunk views of the fused weights, the attention
dict, the bias dict, and the global generator. -/
structure RState where
  ws : OD
  wd : OD
  attn : List (ET × List ℚ)
  bias : Option (List (ET × Option (List ℚ)))
  rng : Nat
deriving DecidableEq

/-- Loop body of `reset_parameters`: glorot the source chunk, the
destination chunk when the endpoints differ, the viewed attention vector,
then zero the bias. -/
def resetStep (L : Layer) (st : RState) (e : ET) : Except String RState := do
  let c ← dgetE st.ws e
  let g1 := glorotOpt st.rng c
  let ws := dset st.ws e g1.1
  let wdrng ←
    (if e.1 ≠ e.2.2 then do
      let cd ← dgetE st.wd e
      let g2 := glorotOpt g1.2 cd
      pure (dset st.wd e g2.1, g2.2)
    else pure (st.wd, g1.2))
  let av ← dgetE st.attn e
  let ag ← attnGlorot wdrng.2 av L.num_heads L.out_channels
  let attn := dset st.attn e ag.1
  let bias ←
    (match st.bias with
    | none => pure none
    | some bd => do
      let bv ← dgetE bd e
      pure (some (dset bd e (zerosOpt bv))))
  pure ⟨ws, wdrng.1, attn, bias, ag.2⟩

/-- `Mat.data` of an optional chunk (`[]` for `None`). -/
def odata : Option Mat → List (List ℚ)
  | none => []
  | some m => m.data

/-- The chunks produced by `split_tensors` are `torch.chunk` views that
alias rows of the parent fused weight; in-place `glorot` on a chunk
writes through to the parent.  The functional embedding makes the
aliasing explicit by reassembling each node type's fused rows from its
chunks, source relations first, then destination relations. -/
def reassembleData (ets : List ET) (ws wd : OD) (nt : String) : List (List ℚ) :=
  (((srcRels ets nt).map fun e => odata (dget ws e none))
    ++ ((dstRels ets nt).map fun e => odata (dget wd e none))).join

/-- `HeteroGATConv.reset_parameters(seed=None)`: optionally reseed the
global generator, split the fused weights into per-relation row chunks,
then initialize per edge type. -/
def reset_parameters (L : Layer) (rng : Nat) (seed : Option Nat) :
    Except String (Layer × Nat) := do
  let rng0 := match seed with | some s => manualSeed s | none => rng
  let sp ← split_tensors L L.lin_weights 0
  let st ← L.edge_types.foldlM (resetStep L) (RState.mk sp.1 sp.2 L.attn_weights L.bias rng0)
  let lin := L.lin_weights.map fun p =>
    (p.1, Mat.mk p.2.nrows p.2.ncols (reassembleData L.edge_types st.ws st.wd p.1))
  pure ({ L with lin_weights := lin, attn_weights := st.attn, bias := st.bias }, st.rng)

/-- `in_channels`: either one width for every node type or an explicit
per-node-type dict. -/
inductive InCh where
  | int (n : Nat)
  | dict (d : List (String × Nat))
deriving DecidableEq

/-- Python tuple comparison for the `pyg_version < (2, 4, 0)` gate. -/
def verLt (a b : Nat × Nat × Nat) : Bool :=
  decide (a.1 < b.1) ||
    (decide (a.1 = b.1) &&
      (decide (a.2.1 < b.2.1) || (decide (a.2.1 = b.2.1) && decide (a.2.2 < b.2.2))))

/-- `HeteroGATConv.__init__`: version gate, `in_channels` normalization,
relation index, parameter allocation (`torch.empty` modelled as zeros —
every retained entry is overwritten by `reset_parameters`), then
`self.reset_parameters()` with the ambient generator. -/
def initLayer (pyg_version : Nat × Nat × Nat) (in_channels : InCh) (out_channels : Nat)
    (node_types : List String) (edge_types : List ET) (heads : Nat) (concat : Bool)
    (negative_slope : ℚ) (bias : Bool) (aggr : String) (rng : Nat) :
    Except String (Layer × Nat) := do
  if verLt pyg_version (2, 4, 0) then
    throw "HeteroGATConv requires pyg version at least 2.4.0"
  let in_ch := match in_channels with
    | .int n => node_types.map fun t => (t, n)
    | .dict d => d
  let attn := edge_types.map fun e =>
    (e, List.replicate (2 * heads * out_channels) (0 : ℚ))
  let biases : List (ET × Option (List ℚ)) := edge_types.map fun e =>
    (e, if bias && concat then some (List.replicate (heads * out_channels) 0)
        else if bias then some (List.replicate out_channels 0)
        else none)
  let lin ← node_types.mapM fun nt => do
    let c ← dgetE in_ch nt
    pure (nt, Mat.mk (nRel edge_types nt * heads * out_channels) c
      (List.replicate (nRel edge_types nt * heads * out_channels)
        (List.replicate c (0 : ℚ))))
  let L : Layer := {
    in_channels := in_ch
    out_channels := out_channels
    node_types := node_types
    edge_types := edge_types
    num_heads := heads
    concat_heads := concat
    negative_slope := negative_slope
    aggr := aggr
    lin_weights := lin
    attn_weights := attn
    bias := if bias then some biases else none }
  reset_parameters L rng none

/-! ### Forward pass -/

/-- Transpose (`weight.T`). -/
def matT (m : Mat) : Mat :=
  Mat.mk m.ncols m.nrows
    ((List.range m.ncols).map fun j => m.data.map fun row => row.getD j 0)

/-- Dot product of two rows. -/
def dotQ (a b : List ℚ) : ℚ := (List.zipWith (fun x y => x * y) a b).sum

/-- `a @ b`, raising on an inner-dimension mismatch. -/
def matMul (a b : Mat) : Except String Mat :=
  if a.ncols ≠ b.nrows then .error "mat1 and mat2 shapes cannot be multiplied"
  else .ok (Mat.mk a.nrows b.ncols
    (a.data.map fun ra => (List.range b.ncols).map fun j =>
      dotQ ra (b.data.map fun rb => rb.getD j 0)))

/-- The Projector: `feat_dict[ntype] = x @ self.lin_weights[ntype].T`. -/
def featOf (L : Layer) (x_dict : List (String × Mat)) :
    Except String (List (String × Mat)) :=
  x_dict.mapM fun p => do
    let w ← dgetE L.lin_weights p.1
    let f ← matMul p.2 (matT w)
    pure (p.1, f)

/-- Modelled from the spec: `BaseConv.to_csc(edge_index, (n_src, n_dst))`
lives in `base.py`, which is not among the sources; the spec specifies
only that it converts the edge list into a compressed sparse
representation sized by the two node counts, so the adjacency is kept as
an opaque record of its inputs. -/
structure CSC where
  edges : List (Nat × Nat)
  n_src : Nat
  n_dst : Nat
deriving DecidableEq

def to_csc (edge_index : List (Nat × Nat)) (n_src n_dst : Nat) : CSC :=
  CSC.mk edge_index n_src n_dst

/-- Modelled from the spec: `self.get_cugraph(csc, bipartite)` is defined
in `base.py` (not among the sources); it wraps the CSC adjacency for the
kernel, distinguishing the homogeneous and bipartite variants. -/
structure CuGraph where
  csc : CSC
  bipartite : Bool
deriving DecidableEq

def get_cugraph (c : CSC) (bp : Bool) : CuGraph := CuGraph.mk c bp

/-- Feature argument of `mha_gat_n2n`: a single tensor on the homogeneous
path, a pair on the bipartite path.  Values are optional because the
layer passes whatever `split_tensors` produced, including `None`. -/
inductive MhaInput where
  | single (x : Option Mat)
  | pair (xs xd : Option Mat)
deriving DecidableEq

/-- The full argument record of one `mha_gat_n2n` invocation. -/
structure MhaArgs where
  input : MhaInput
  attn : List ℚ
  graph : CuGraph
  num_heads : Nat
  activation : String
  negative_slope : ℚ
  concat_heads : Bool
deriving DecidableEq

/-- `out = out + self.bias[edge_type]` (row-broadcast add). -/
def biasAdd (L : Layer) (e : ET) (m : Mat) : Except String Mat :=
  match L.bias with
  | none => .ok m
  | some bd => do
    let bv ← dgetE bd e
    match bv with
    | none => .error "unsupported operand type for add"
    | some v =>
      if v.length = m.ncols then
        .ok (Mat.mk m.nrows m.ncols (m.data.map fun row => List.zipWith (fun x y => x + y) row v))
      else .error "size mismatch in broadcast add"

/-- Body of the `for edge_type, edge_index in edge_index_dict.items()`
loop of `forward`: build the CSC adjacency, dispatch the homogeneous or
bipartite attention kernel, add the bias.  The kernel itself
(`pylibcugraphops`' `mha_gat_n2n`) is an external collaborator and is a
parameter `mha`. -/
def relOut (mha : MhaArgs → Mat) (L : Layer) (x_dict : List (String × Mat))
    (xs xd : OD) (e : ET) (ei : List (Nat × Nat)) : Except String Mat := do
  let xsrc ← dgetE x_dict e.1
  let xdst ← dgetE x_dict e.2.2
  let csc := to_csc ei xsrc.nrows xdst.nrows
  let a ← dgetE L.attn_weights e
  let xin ← dgetE xs e
  let out ←
    (if e.1 = e.2.2 then
      pure (mha (MhaArgs.mk (MhaInput.single xin) a (get_cugraph csc false)
        L.num_heads "LeakyReLU" L.negative_slope L.concat_heads))
    else do
      let xdin ← dgetE xd e
      pure (mha (MhaArgs.mk (MhaInput.pair xin xdin) a (get_cugraph csc true)
        L.num_heads "LeakyReLU" L.negative_slope L.concat_heads)))
  biasAdd L e out

/-- Projection, split, and per-relation dispatch of `forward`, before the
final aggregation. -/
def relOutsOf (mha : MhaArgs → Mat) (L : Layer) (x_dict : List (String × Mat))
    (edge_index_dict : List (ET × List (Nat × Nat))) :
    Except String (List (ET × Mat)) := do
  let feat ← featOf L x_dict
  let sp ← split_tensors L feat 1
  edge_index_dict.mapM fun p => do
    let o ← relOut mha L x_dict sp.1 sp.2 p.1 p.2
    pure (p.1, o)

/-- `out_dict[dst_type].append(out)` on a `defaultdict(list)`. -/
def dappend {κ α : Type} [DecidableEq κ] (d : List (κ × List α)) (k : κ) (v : α) :
    List (κ × List α) :=
  match d with
  | [] => [(k, [v])]
  | p :: ps => if p.1 = k then (p.1, p.2 ++ [v]) :: ps else p :: dappend ps k v

/-- Bucket the per-relation outputs by destination node type, in
iteration order. -/
def buckets (os : List (ET × Mat)) : List (String × List Mat) :=
  os.foldl (fun d p => dappend d p.1.2.2 p.2) []

/-- Elementwise combination of two equally shaped tensors. -/
def matZipWith (f : ℚ → ℚ → ℚ) (a b : Mat) : Mat :=
  Mat.mk a.nrows a.ncols (List.zipWith (fun ra rb => List.zipWith f ra rb) a.data b.data)

/-- Scalar multiple of a tensor. -/
def matScale (c : ℚ) (m : Mat) : Mat :=
  Mat.mk m.nrows m.ncols (m.data.map fun r => r.map fun x => c * x)

/-- Modelled from the spec: `torch_geometric.nn.conv.hetero_conv.group`
is an external collaborator specified only as "combine via the
configured reduction — sum, mean, elementwise min, or elementwise max";
other aggregation names error (the library would raise an
`AttributeError`). -/
def groupSpec (xs : List Mat) (aggr : String) : Except String Mat :=
  match xs with
  | [] => .error "group of an empty relation list"
  | x :: rest =>
    if aggr = "sum" then .ok (rest.foldl (matZipWith (fun a b => a + b)) x)
    else if aggr = "mean" then
      .ok (matScale (1 / ((rest.length : ℚ) + 1))
        (rest.foldl (matZipWith (fun a b => a + b)) x))
    else if aggr = "min" then .ok (rest.foldl (matZipWith min) x)
    else if aggr = "max" then .ok (rest.foldl (matZipWith max) x)
    else .error "unknown aggregation"

/-- `HeteroGATConv.forward`: project, split, dispatch every edge type,
bucket the relation outputs per destination node type, and reduce each
bucket with the configured aggregation. -/
def forward (mha : MhaArgs → Mat) (L : Layer) (x_dict : List (String × Mat))
    (edge_index_dict : List (ET × List (Nat × Nat))) :
    Except String (List (String × Mat)) := do
  let os ← relOutsOf mha L x_dict edge_index_dict
  (buckets os).mapM fun p => do
    let g ← groupSpec p.2 L.aggr
    pure (p.1, g)

/-! ### Auxiliary dictionary lemmas -/

theorem dgetE_dset_self {κ α : Type} [DecidableEq κ]
    (d : List (κ × α)) (k : κ) (v : α) :
    dgetE (dset d k v) k = .ok v := by
  induction d with
  | nil => simp [dset, dgetE]
  | cons p ps ih =>
    by_cases h : p.1 = k
    · simp [dset, h, dgetE]
    · simp [dset, h, dgetE, ih]

theorem dgetE_dset_ne {κ α : Type} [DecidableEq κ]
    (d : List (κ × α)) (k k' : κ) (v : α) (h : k' ≠ k) :
    dgetE (dset d k v) k' = dgetE d k' := by
  have h1 : ¬ (k = k') := fun hh => h hh.symm
  induction d with
  | nil =>
    simp only [dset, dgetE]
    rw [if_neg h1]
  | cons p ps ih =>
    by_cases hp : p.1 = k
    · have h2 : ¬ (p.1 = k') := by rw [hp]; exact h1
      simp only [dset, if_pos hp, dgetE]
      rw [if_neg h1, if_neg h2]
    · simp only [dset, if_neg hp, dgetE]
      by_cases hp' : p.1 = k'
      · rw [if_pos hp', if_pos hp']
      · rw [if_neg hp', if_neg hp', ih]

theorem dgetE_error_of_not_mem {κ α : Type} [DecidableEq κ]
    (d : List (κ × α)) (k : κ) (h : k ∉ dkeys d) :
    dgetE d k = .error "KeyError" := by
  induction d with
  | nil => rfl
  | cons p ps ih =>
    have hp : ¬ (p.1 = k) := fun hh => h (by simp [dkeys, hh])
    have hps : k ∉ dkeys ps := fun hh => h (by simp [dkeys] at hh ⊢; right; exact hh)
    simp only [dgetE, if_neg hp]
    exact ih hps

theorem dget_of_mem_nodup {κ α : Type} [DecidableEq κ]
    (d : List (κ × α)) (k : κ) (v : α) (dflt : α)
    (hnd : (dkeys d).Nodup) (h : (k, v) ∈ d) :
    dget d k dflt = v := by
  induction d with
  | nil => simp at h
  | cons p ps ih =>
    rcases List.mem_cons.mp h with h | h
    · subst h
      simp [dget]
    · have hk : k ∈ dkeys ps := by
        simp only [dkeys, List.mem_map]
        exact ⟨(k, v), h, rfl⟩
      have hnd2 : p.1 ∉ dkeys ps ∧ (dkeys ps).Nodup := by
        simp only [dkeys, List.map_cons] at hnd
        exact List.nodup_cons.mp hnd
      have hp : ¬ (p.1 = k) := fun hh => hnd2.1 (hh ▸ hk)
      simp only [dget, if_neg hp]
      exact ih hnd2.2 h

theorem mem_of_mem_dkeys {κ α : Type} [DecidableEq κ]
    (d : List (κ × α)) (k : κ) (dflt : α) (h : k ∈ dkeys d) :
    (k, dget d k dflt) ∈ d := by
  induction d with
  | nil => simp [dkeys] at h
  | cons p ps ih =>
    by_cases hp : p.1 = k
    · rw [dget_cons, if_pos hp, ← hp]
      exact List.mem_cons_self p ps
    · have hmem : k ∈ dkeys ps := mem_dkeys_cons p ps k h hp
      rw [dget_cons, if_neg hp]
      exact List.mem_cons_of_mem p (ih hmem)

/-- Lookup in a dict whose values are all the constant `c`. -/
theorem dgetE_const_map {κ α : Type} [DecidableEq κ]
    (l : List κ) (c : α) (k : κ) (h : k ∈ l) :
    dgetE (l.map fun e => (e, c)) k = .ok c := by
  induction l with
  | nil => simp at h
  | cons a rest ih =>
    by_cases ha : a = k
    · simp [dgetE, ha]
    · have : k ∈ rest := by
        rcases List.mem_cons.mp h with h | h
        · exact absurd h.symm ha
        · exact h
      simp only [List.map_cons, dgetE, if_neg ha]
      exact ih this

/-! ### Structure of a successful construction -/

theorem linAlloc_char (in_ch : List (String × Nat)) (ets : List ET) (heads oc : Nat) :
    ∀ (nts : List String) (lin : List (String × Mat)),
      (nts.mapM fun nt => do
        let c ← dgetE in_ch nt
        pure (nt, Mat.mk (nRel ets nt * heads * oc) c
          (List.replicate (nRel ets nt * heads * oc)
            (List.replicate c (0 : ℚ))))) = .ok lin →
      dkeys lin = nts ∧
      ∀ p ∈ lin, p.2.nrows = nRel ets p.1 * heads * oc ∧
        dgetE in_ch p.1 = .ok p.2.ncols := by
  intro nts
  induction nts with
  | nil =>
    intro lin h
    simp only [List.mapM_nil, pure] at h
    cases h
    exact ⟨rfl, by simp⟩
  | cons nt rest ih =>
    intro lin h
    rw [List.mapM_cons] at h
    cases hc : dgetE in_ch nt with
    | error s =>
      rw [hc] at h
      simp only [bind, Except.bind] at h
      exact absurd h (by simp)
    | ok c =>
      rw [hc] at h
      cases hrest : rest.mapM (fun nt => do
          let c ← dgetE in_ch nt
          pure (nt, Mat.mk (nRel ets nt * heads * oc) c
            (List.replicate (nRel ets nt * heads * oc)
              (List.replicate c (0 : ℚ))))) with
      | error s =>
        rw [hrest] at h
        simp only [bind, Except.bind, pure, Except.pure] at h
        exact absurd h (by simp)
      | ok lin0 =>
        rw [hrest] at h
        simp only [bind, Except.bind, pure, Except.pure] at h
        obtain ⟨hk0, hq0⟩ := ih lin0 hrest
        have hlin : lin = (nt, Mat.mk (nRel ets nt * heads * oc) c
            (List.replicate (nRel ets nt * heads * oc)
              (List.replicate c (0 : ℚ)))) :: lin0 := (Except.ok.inj h).symm
        subst hlin
        constructor
        · simp only [dkeys, List.map_cons, List.cons.injEq, true_and]
          exact hk0
        · intro p hp
          rcases List.mem_cons.mp hp with hp | hp
          · subst hp
            exact ⟨rfl, hc⟩
          · exact hq0 p hp

theorem reset_ok_struct (L : Layer) (rng : Nat) (seed : Option Nat) (L2 : Layer) (r : Nat)
    (h : reset_parameters L rng seed = .ok (L2, r)) :
    L2.edge_types = L.edge_types ∧ L2.num_heads = L.num_heads ∧
    L2.out_channels = L.out_channels ∧ L2.node_types = L.node_types ∧
    L2.in_channels = L.in_channels ∧ L2.aggr = L.aggr ∧
    L2.concat_heads = L.concat_heads ∧ L2.negative_slope = L.negative_slope ∧
    dkeys L2.lin_weights = dkeys L.lin_weights ∧
    (∀ p2 ∈ L2.lin_weights, ∃ p ∈ L.lin_weights,
      p2.1 = p.1 ∧ p2.2.nrows = p.2.nrows ∧ p2.2.ncols = p.2.ncols) := by
  simp only [reset_parameters, bind, Except.bind, pure, Except.pure] at h
  split at h
  · exact absurd h (by simp)
  · split at h
    · exact absurd h (by simp)
    · rename_i st hst
      have hinj := Except.ok.inj h
      have hL2 : L2 = { L with
          lin_weights := L.lin_weights.map fun p =>
            (p.1, Mat.mk p.2.nrows p.2.ncols (reassembleData L.edge_types st.ws st.wd p.1)),
          attn_weights := st.attn, bias := st.bias } := (congrArg Prod.fst hinj).symm
      subst hL2
      refine ⟨rfl, rfl, rfl, rfl, rfl, rfl, rfl, rfl, ?_, ?_⟩
      · simp only [dkeys, List.map_map]
        exact List.map_congr_left fun p _ => rfl
      · intro p2 hp2
        simp only [List.mem_map] at hp2
        obtain ⟨p, hp, hpe⟩ := hp2
        exact ⟨p, hp, by rw [← hpe], by rw [← hpe], by rw [← hpe]⟩

theorem initLayer_ok_struct
    (pv : Nat × Nat × Nat) (ic : InCh) (oc : Nat) (nts : List String) (ets : List ET)
    (heads : Nat) (concat : Bool) (ns : ℚ) (bias : Bool) (aggr : String) (rng : Nat)
    (L : Layer) (r : Nat)
    (h : initLayer pv ic oc nts ets heads concat ns bias aggr rng = .ok (L, r)) :
    L.edge_types = ets ∧ L.num_heads = heads ∧ L.out_channels = oc ∧
    L.node_types = nts ∧ dkeys L.lin_weights = nts ∧
    (∀ p ∈ L.lin_weights, p.2.nrows = nRel ets p.1 * heads * oc ∧
      dgetE (match ic with | .int n => nts.map fun t => (t, n) | .dict d => d) p.1
        = .ok p.2.ncols) := by
  by_cases hv : verLt pv (2, 4, 0) = true
  · simp only [initLayer, hv, if_true, throw, throwThe, MonadExceptOf.throw, bind,
      Except.bind] at h
    exact absurd h (by simp)
  · simp only [initLayer, hv, if_false, Bool.false_eq_true, ite_false, bind,
      Except.bind, pure, Except.pure] at h
    split at h
    · exact absurd h (by simp)
    · rename_i lin hlin
      have hlin2 : (nts.mapM fun nt => do
          let c ← dgetE (match ic with
            | .int n => nts.map fun t => (t, n) | .dict d => d) nt
          pure (nt, Mat.mk (nRel ets nt * heads * oc) c
            (List.replicate (nRel ets nt * heads * oc)
              (List.replicate c (0 : ℚ))))) = .ok lin := hlin
      obtain ⟨hk, hq⟩ := linAlloc_char _ ets heads oc nts lin hlin2
      obtain ⟨he1, he2, he3, he4, he5, _, _, _, he9, he10⟩ :=
        reset_ok_struct _ rng none L r h
      simp only at he1 he2 he3 he4 he9
      refine ⟨he1, he2, he3, he4, by rw [he9]; exact hk, ?_⟩
      intro p2 hp2
      obtain ⟨p, hp, hfst, hrows, hcols⟩ := he10 p2 hp2
      obtain ⟨hq1, hq2⟩ := hq p hp
      exact ⟨by rw [hrows, hfst, hq1], by rw [hcols, hfst]; exact hq2⟩

/-! ### Claim theorems -/

/-- C1: the claim states that a node type declared in `node_types` but
appearing in no edge type must construct successfully with a zero-row
fused weight and be silently skipped by `forward`.  The code disagrees:
`reset_parameters` (called from `__init__`) runs `split_tensors` over all
of `lin_weights`, and for the unreferenced node type this calls
`torch.chunk(t, chunks=0)`, which raises — so construction itself fails;
likewise `split_tensors` during `forward` raises when `x_dict` contains
the unreferenced node type (second conjunct, evaluated on the layer the
claim assumes could have been built). -/
theorem C1_unreferenced_node_type_raises :
    initLayer (2, 4, 0) (InCh.int 2) 2 ["A", "B"] [("A", "r", "A")] 1 true (1/5) true "sum" 0
      = .error "chunk expects chunks to be greater than 0"
    ∧ (split_tensors
        (Layer.mk [("A", 2), ("B", 2)] 2 ["A", "B"] [("A", "r", "A")] 1 true (1/5) "sum"
          [("A", Mat.mk 2 2 [[0, 0], [0, 0]]), ("B", Mat.mk 0 2 [])]
          [(("A", "r", "A"), [0, 0, 0, 0])]
          (some [(("A", "r", "A"), some [0, 0])]))
        [("B", Mat.mk 3 0 [[], [], []])] 1).isOk = false := by
  constructor
  · rfl
  · rfl

/-- C2: the relation index appends each edge type `(s, r, d)` to `s`'s
source list and, only when `d ≠ s`, to `d`'s destination list (a
same-type relation is registered exactly once, in the source list); every
node type's fused weight has `(len src + len dst) * heads * out_channels`
rows and `in_channels[node_type]` columns; and the row blocks are ordered
all source relations first (in list order), then all destination
relations (in list order), as exhibited by the dim-0 chunk routing of
`split_tensors` on the fused weights. -/
theorem C2_relation_index_and_fused_layout
    (pv : Nat × Nat × Nat) (ic : InCh) (oc : Nat) (nts : List String) (ets : List ET)
    (heads : Nat) (concat : Bool) (ns : ℚ) (bias : Bool) (aggr : String)
    (rng : Nat) (L : Layer) (r : Nat)
    (hinit : initLayer pv ic oc nts ets heads concat ns bias aggr rng = .ok (L, r))
    (hnd : ets.Nodup) (hnts : nts.Nodup) (hho : 0 < heads * oc)
    (hpos : ∀ nt ∈ nts, 0 < nRel ets nt) :
    (∀ nt, srcRels ets nt = ets.filter (fun e => e.1 = nt)
      ∧ dstRels ets nt = ets.filter (fun e => e.2.2 = nt ∧ e.1 ≠ e.2.2)) ∧
    (∀ p ∈ L.lin_weights, p.2.nrows = nRel ets p.1 * heads * oc ∧
      dgetE (match ic with | .int n => nts.map fun t => (t, n) | .dict d => d) p.1
        = .ok p.2.ncols) ∧
    (∃ ws wd, split_tensors L L.lin_weights 0 = .ok (ws, wd) ∧
      ∀ p ∈ L.lin_weights,
        (∀ i e, (srcRels ets p.1).get? i = some e →
          dget ws e none = some (pieceAt p.2 0 i (heads * oc))) ∧
        (∀ j e, (dstRels ets p.1).get? j = some e →
          dget wd e none
            = some (pieceAt p.2 0 ((srcRels ets p.1).length + j) (heads * oc)))) := by
  obtain ⟨he1, he2, he3, he4, he5, hshape⟩ :=
    initLayer_ok_struct pv ic oc nts ets heads concat ns bias aggr rng L r hinit
  refine ⟨fun nt => ⟨srcRels_char ets nt, dstRels_char ets nt⟩, hshape, ?_⟩
  have hndL : L.edge_types.Nodup := he1 ▸ hnd
  have hdk : (dkeys L.lin_weights).Nodup := he5 ▸ hnts
  have hd : ∀ p ∈ L.lin_weights, 0 < nRel L.edge_types p.1 ∧
      p.2.sizeDim 0 = nRel L.edge_types p.1 * (heads * oc) := by
    intro p hp
    have hmem : p.1 ∈ nts := by
      rw [← he5]
      simp only [dkeys, List.mem_map]
      exact ⟨p, hp, rfl⟩
    obtain ⟨hr, _⟩ := hshape p hp
    constructor
    · rw [he1]; exact hpos p.1 hmem
    · rw [he1]
      show p.2.nrows = nRel ets p.1 * (heads * oc)
      rw [hr, Nat.mul_assoc]
  obtain ⟨ws, wd, hsp, _, _, hassign, _, _⟩ :=
    split_tensors_char L L.lin_weights 0 (heads * oc) hho hndL hdk hd
  refine ⟨ws, wd, hsp, ?_⟩
  intro p hp
  obtain ⟨ha, hb⟩ := hassign p hp
  rw [he1] at ha hb
  exact ⟨ha, hb⟩

/-- Witness for C2 on a concrete two-node-type, two-edge-type layer. -/
theorem C2_relation_index_and_fused_layout_witness :
    ∃ L r, initLayer (2, 4, 0) (InCh.int 1) 1 ["A", "B"]
        [("A", "r1", "B"), ("B", "r2", "A")] 1 true (1/5) true "sum" 0 = .ok (L, r) ∧
      ((∀ nt, srcRels [("A", "r1", "B"), ("B", "r2", "A")] nt
          = [("A", "r1", "B"), ("B", "r2", "A")].filter (fun e => e.1 = nt)
        ∧ dstRels [("A", "r1", "B"), ("B", "r2", "A")] nt
          = [("A", "r1", "B"), ("B", "r2", "A")].filter
              (fun e => e.2.2 = nt ∧ e.1 ≠ e.2.2)) ∧
      (∀ p ∈ L.lin_weights,
        p.2.nrows = nRel [("A", "r1", "B"), ("B", "r2", "A")] p.1 * 1 * 1 ∧
        dgetE (["A", "B"].map fun t => (t, 1)) p.1 = .ok p.2.ncols) ∧
      (∃ ws wd, split_tensors L L.lin_weights 0 = .ok (ws, wd) ∧
        ∀ p ∈ L.lin_weights,
          (∀ i e, (srcRels [("A", "r1", "B"), ("B", "r2", "A")] p.1).get? i = some e →
            dget ws e none = some (pieceAt p.2 0 i (1 * 1))) ∧
          (∀ j e, (dstRels [("A", "r1", "B"), ("B", "r2", "A")] p.1).get? j = some e →
            dget wd e none
              = some (pieceAt p.2 0
                  ((srcRels [("A", "r1", "B"), ("B", "r2", "A")] p.1).length + j)
                  (1 * 1))))) := by
  have hex : ∃ L r, initLayer (2, 4, 0) (InCh.int 1) 1 ["A", "B"]
      [("A", "r1", "B"), ("B", "r2", "A")] 1 true (1/5) true "sum" 0 = .ok (L, r) := by
    cases h0 : initLayer (2, 4, 0) (InCh.int 1) 1 ["A", "B"]
        [("A", "r1", "B"), ("B", "r2", "A")] 1 true (1/5) true "sum" 0 with
    | error s =>
      have hok : (initLayer (2, 4, 0) (InCh.int 1) 1 ["A", "B"]
          [("A", "r1", "B"), ("B", "r2", "A")] 1 true (1/5) true "sum" 0).isOk = true := by
        decide
      rw [h0] at hok
      exact Bool.noConfusion hok
    | ok p => exact ⟨p.1, p.2, rfl⟩
  obtain ⟨L, r, hinit⟩ := hex
  refine ⟨L, r, hinit, ?_⟩
  exact C2_relation_index_and_fused_layout (2, 4, 0) (InCh.int 1) 1 ["A", "B"]
    [("A", "r1", "B"), ("B", "r2", "A")] 1 true (1/5) true "sum" 0 L r hinit
    (by decide) (by decide) (by decide) (by decide)

theorem mem_of_dgetE_ok {κ α : Type} [DecidableEq κ]
    (d : List (κ × α)) (k : κ) (v : α) (h : dgetE d k = .ok v) :
    (k, v) ∈ d := by
  induction d with
  | nil => exact absurd h (by simp [dgetE])
  | cons p ps ih =>
    by_cases hp : p.1 = k
    · simp only [dgetE, if_pos hp] at h
      have hv : p.2 = v := Except.ok.inj h
      rw [← hv, ← hp]
      exact List.mem_cons_self p ps
    · simp only [dgetE, if_neg hp] at h
      exact List.mem_cons_of_mem p (ih h)

theorem matMul_ok_shape (a b f : Mat) (h : matMul a b = .ok f) :
    a.ncols = b.nrows ∧ f.nrows = a.nrows ∧ f.ncols = b.ncols := by
  by_cases hd : a.ncols = b.nrows
  · have hcond : ¬ (a.ncols ≠ b.nrows) := fun hh => hh hd
    simp only [matMul, if_neg hcond] at h
    have := Except.ok.inj h
    exact ⟨hd, by rw [← this], by rw [← this]⟩
  · simp only [matMul, if_pos hd] at h
    exact absurd h (by simp)

theorem featOf_char (L : Layer) :
    ∀ (x_dict feat : List (String × Mat)), featOf L x_dict = .ok feat →
      dkeys feat = dkeys x_dict ∧
      ∀ q ∈ feat, ∃ x w, (q.1, x) ∈ x_dict ∧ dgetE L.lin_weights q.1 = .ok w ∧
        x.ncols = w.ncols ∧ q.2.nrows = x.nrows ∧ q.2.ncols = w.nrows := by
  intro x_dict
  induction x_dict with
  | nil =>
    intro feat h
    simp only [featOf, List.mapM_nil, pure, Except.pure] at h
    cases h
    exact ⟨rfl, by simp⟩
  | cons p rest ih =>
    intro feat h
    simp only [featOf] at h
    rw [List.mapM_cons] at h
    cases hw : dgetE L.lin_weights p.1 with
    | error s =>
      rw [hw] at h
      simp only [bind, Except.bind] at h
      exact absurd h (by simp)
    | ok w =>
      rw [hw] at h
      cases hrest : List.mapM (fun p => do
          let w ← dgetE L.lin_weights p.1
          let f ← matMul p.2 (matT w)
          pure (p.1, f)) rest with
      | error s =>
        rw [hrest] at h
        simp only [bind, Except.bind, pure, Except.pure] at h
        cases hm : matMul p.2 (matT w) with
        | error s2 => rw [hm] at h; simp at h
        | ok f => rw [hm] at h; simp at h
      | ok feat0 =>
        rw [hrest] at h
        simp only [bind, Except.bind, pure, Except.pure] at h
        cases hm : matMul p.2 (matT w) with
        | error s => rw [hm] at h; simp at h
        | ok f =>
          rw [hm] at h
          simp at h
          subst h
          obtain ⟨hk0, hq0⟩ := ih feat0 hrest
          constructor
          · simp only [dkeys, List.map_cons, List.cons.injEq, true_and]
            exact hk0
          · intro q hq
            rcases List.mem_cons.mp hq with hq | hq
            · subst hq
              obtain ⟨hcc, hfr, hfc⟩ := matMul_ok_shape p.2 (matT w) f hm
              exact ⟨p.2, w, List.mem_cons_self p rest, hw, hcc, hfr, hfc⟩
            · obtain ⟨x, w2, hmem, hw2, hx1, hx2, hx3⟩ := hq0 q hq
              exact ⟨x, w2, List.mem_cons_of_mem p hmem, hw2, hx1, hx2, hx3⟩

/-- C3: on any fused feature dict produced by the Projector,
`split_tensors` partitions each node type's tensor into exactly `n_rel`
equal contiguous chunks along the given dimension (here the column
dimension used by `forward`), assigning the first `len(source list)`
chunks to `x_src_dict` keyed by the source-list edge types in order and
the remaining chunks to `x_dst_dict` keyed by the destination-list edge
types in order; the split dimension has size `n_rel * heads *
out_channels`, so the chunking never leaves a remainder. -/
theorem C3_split_partition
    (pv : Nat × Nat × Nat) (ic : InCh) (oc : Nat) (nts : List String) (ets : List ET)
    (heads : Nat) (concat : Bool) (ns : ℚ) (bias : Bool) (aggr : String)
    (rng : Nat) (L : Layer) (r : Nat)
    (hinit : initLayer pv ic oc nts ets heads concat ns bias aggr rng = .ok (L, r))
    (hnd : ets.Nodup) (hho : 0 < heads * oc)
    (x_dict feat : List (String × Mat)) (hxk : (dkeys x_dict).Nodup)
    (hpos : ∀ nt ∈ dkeys x_dict, 0 < nRel ets nt)
    (hfeat : featOf L x_dict = .ok feat) :
    (∀ q ∈ feat, q.2.ncols = nRel ets q.1 * (heads * oc)) ∧
    ∃ ws wd, split_tensors L feat 1 = .ok (ws, wd) ∧
      ∀ q ∈ feat,
        (∀ i e, (srcRels ets q.1).get? i = some e →
          dget ws e none = some (pieceAt q.2 1 i (heads * oc))) ∧
        (∀ j e, (dstRels ets q.1).get? j = some e →
          dget wd e none
            = some (pieceAt q.2 1 ((srcRels ets q.1).length + j) (heads * oc))) := by
  obtain ⟨he1, he2, he3, he4, he5, hshape⟩ :=
    initLayer_ok_struct pv ic oc nts ets heads concat ns bias aggr rng L r hinit
  obtain ⟨hkf, hqf⟩ := featOf_char L x_dict feat hfeat
  have hcols : ∀ q ∈ feat, q.2.ncols = nRel ets q.1 * (heads * oc) := by
    intro q hq
    obtain ⟨x, w, hmem, hw, _, _, hqc⟩ := hqf q hq
    have hwin : (q.1, w) ∈ L.lin_weights := mem_of_dgetE_ok _ _ _ hw
    obtain ⟨hr, _⟩ := hshape (q.1, w) hwin
    rw [hqc, hr, Nat.mul_assoc]
  refine ⟨hcols, ?_⟩
  have hndL : L.edge_types.Nodup := he1 ▸ hnd
  have hdk : (dkeys feat).Nodup := hkf ▸ hxk
  have hd : ∀ q ∈ feat, 0 < nRel L.edge_types q.1 ∧
      q.2.sizeDim 1 = nRel L.edge_types q.1 * (heads * oc) := by
    intro q hq
    have hmem : q.1 ∈ dkeys x_dict := by
      rw [← hkf]
      simp only [dkeys, List.mem_map]
      exact ⟨q, hq, rfl⟩
    constructor
    · rw [he1]; exact hpos q.1 hmem
    · rw [he1]
      show q.2.ncols = nRel ets q.1 * (heads * oc)
      exact hcols q hq
  obtain ⟨ws, wd, hsp, _, _, hassign, _, _⟩ :=
    split_tensors_char L feat 1 (heads * oc) hho hndL hdk hd
  refine ⟨ws, wd, hsp, ?_⟩
  intro q hq
  obtain ⟨ha, hb⟩ := hassign q hq
  rw [he1] at ha hb
  exact ⟨ha, hb⟩

/-- A concrete constructed layer: one node type, one same-type edge type,
all widths 1, built with ambient generator state 0 (the parameter values
are the result of the construction-time `reset_parameters()` call). -/
def L0 : Layer :=
  Layer.mk [("A", 1)] 1 ["A"] [("A", "r", "A")] 1 true (1/5) "sum"
    [("A", Mat.mk 1 1 [[-327/128]])]
    [(("A", "r", "A"), [123/64, -57/128])]
    (some [(("A", "r", "A"), some [0])])

theorem initLayer_L0 :
    initLayer (2, 4, 0) (InCh.int 1) 1 ["A"] [("A", "r", "A")] 1 true (1/5) true "sum" 0
      = .ok (L0, 109) := by
  with_unfolding_all decide

/-- Witness for C3 on a concrete projector output of `L0`. -/
theorem C3_split_partition_witness :
    (∀ q ∈ [("A", Mat.mk 2 1 [[-327/128], [-327/64]])],
      (q : String × Mat).2.ncols = nRel [("A", "r", "A")] q.1 * (1 * 1)) ∧
    ∃ ws wd,
      split_tensors L0 [("A", Mat.mk 2 1 [[-327/128], [-327/64]])] 1 = .ok (ws, wd) ∧
      ∀ q ∈ [("A", Mat.mk 2 1 [[-327/128], [-327/64]])],
        (∀ i e, (srcRels [("A", "r", "A")] (q : String × Mat).1).get? i = some e →
          dget ws e none = some (pieceAt q.2 1 i (1 * 1))) ∧
        (∀ j e, (dstRels [("A", "r", "A")] q.1).get? j = some e →
          dget wd e none
            = some (pieceAt q.2 1
                ((srcRels [("A", "r", "A")] q.1).length + j) (1 * 1))) := by
  exact C3_split_partition (2, 4, 0) (InCh.int 1) 1 ["A"] [("A", "r", "A")] 1 true (1/5)
    true "sum" 0 L0 109 initLayer_L0 (by decide) (by decide)
    [("A", Mat.mk 2 1 [[1], [2]])] [("A", Mat.mk 2 1 [[-327/128], [-327/64]])]
    (by decide) (by decide) (by with_unfolding_all decide)

/-- C4: for every edge type processed in `forward`, if its source type
equals its destination type the homogeneous attention primitive is
invoked with the single source-role chunk (and no destination chunk
exists for that relation — its `x_dst_dict` entry is `None`); otherwise
the bipartite variant is invoked with the (source chunk, destination
chunk) pair; in both cases with the relation's attention vector, the CSC
adjacency sized by the two node counts, the head count, LeakyReLU with
the configured negative slope, and the concat flag.  The bias add then
follows. -/
theorem C4_dispatch
    (mha : MhaArgs → Mat) (L : Layer) (x_dict : List (String × Mat))
    (d : List (String × Mat)) (dim : Nat) (xs xd : OD) (e : ET) (ei : List (Nat × Nat))
    (xsrc xdst : Mat) (a : List ℚ) (xin : Option Mat)
    (hsp : split_tensors L d dim = .ok (xs, xd)) (he : e ∈ L.edge_types)
    (h1 : dgetE x_dict e.1 = .ok xsrc) (h2 : dgetE x_dict e.2.2 = .ok xdst)
    (h3 : dgetE L.attn_weights e = .ok a) (h4 : dgetE xs e = .ok xin) :
    (e.1 = e.2.2 →
      relOut mha L x_dict xs xd e ei
        = biasAdd L e (mha (MhaArgs.mk (MhaInput.single xin) a
            (get_cugraph (to_csc ei xsrc.nrows xdst.nrows) false)
            L.num_heads "LeakyReLU" L.negative_slope L.concat_heads))
      ∧ dgetE xd e = .ok none) ∧
    (∀ xdin, e.1 ≠ e.2.2 → dgetE xd e = .ok xdin →
      relOut mha L x_dict xs xd e ei
        = biasAdd L e (mha (MhaArgs.mk (MhaInput.pair xin xdin) a
            (get_cugraph (to_csc ei xsrc.nrows xdst.nrows) true)
            L.num_heads "LeakyReLU" L.negative_slope L.concat_heads))) := by
  constructor
  · intro hee
    constructor
    · simp only [relOut, h1, h2, h3, h4, bind, Except.bind, if_pos hee, pure, Except.pure]
    · obtain ⟨hkw, hkd, hsame, _, _⟩ := split_tensors_ok_inv L d dim xs xd hsp
      have hval : dget xd e none = none := hsame e hee
      have hmem : e ∈ dkeys xd := by rw [hkd]; exact he
      rw [dgetE_eq_dget xd e none hmem, hval]
  · intro xdin hne hdin
    simp only [relOut, h1, h2, h3, h4, hdin, bind, Except.bind, if_neg hne, pure, Except.pure]

/-- Witness for C4 on `L0` (a same-type relation). -/
theorem C4_dispatch_witness :
    (("A", "r", "A").1 = ("A", "r", "A").2.2 →
      relOut (fun _ => Mat.mk 2 1 [[0], [0]]) L0 [("A", Mat.mk 2 1 [[1], [2]])]
          [(("A", "r", "A"), some (Mat.mk 2 1 [[-327/128], [-327/64]]))]
          [(("A", "r", "A"), none)] ("A", "r", "A") [(0, 1)]
        = biasAdd L0 ("A", "r", "A") ((fun _ => Mat.mk 2 1 [[0], [0]])
            (MhaArgs.mk (MhaInput.single (some (Mat.mk 2 1 [[-327/128], [-327/64]])))
              [123/64, -57/128]
              (get_cugraph (to_csc [(0, 1)] (Mat.mk 2 1 [[1], [2]]).nrows
                (Mat.mk 2 1 [[1], [2]]).nrows) false)
              L0.num_heads "LeakyReLU" L0.negative_slope L0.concat_heads))
      ∧ dgetE [(("A", "r", "A"), (none : Option Mat))] ("A", "r", "A") = .ok none) ∧
    (∀ xdin, ("A", "r", "A").1 ≠ ("A", "r", "A").2.2 →
      dgetE [(("A", "r", "A"), (none : Option Mat))] ("A", "r", "A") = .ok xdin →
      relOut (fun _ => Mat.mk 2 1 [[0], [0]]) L0 [("A", Mat.mk 2 1 [[1], [2]])]
          [(("A", "r", "A"), some (Mat.mk 2 1 [[-327/128], [-327/64]]))]
          [(("A", "r", "A"), none)] ("A", "r", "A") [(0, 1)]
        = biasAdd L0 ("A", "r", "A") ((fun _ => Mat.mk 2 1 [[0], [0]])
            (MhaArgs.mk (MhaInput.pair (some (Mat.mk 2 1 [[-327/128], [-327/64]])) xdin)
              [123/64, -57/128]
              (get_cugraph (to_csc [(0, 1)] (Mat.mk 2 1 [[1], [2]]).nrows
                (Mat.mk 2 1 [[1], [2]]).nrows) true)
              L0.num_heads "LeakyReLU" L0.negative_slope L0.concat_heads))) := by
  exact C4_dispatch (fun _ => Mat.mk 2 1 [[0], [0]]) L0 [("A", Mat.mk 2 1 [[1], [2]])]
    [("A", Mat.mk 2 1 [[-327/128], [-327/64]])] 1
    [(("A", "r", "A"), some (Mat.mk 2 1 [[-327/128], [-327/64]]))]
    [(("A", "r", "A"), none)] ("A", "r", "A") [(0, 1)]
    (Mat.mk 2 1 [[1], [2]]) (Mat.mk 2 1 [[1], [2]]) [123/64, -57/128]
    (some (Mat.mk 2 1 [[-327/128], [-327/64]]))
    (by with_unfolding_all decide) (by decide)
    (by with_unfolding_all decide) (by with_unfolding_all decide)
    (by with_unfolding_all decide) (by with_unfolding_all decide)

/-! ### Bucketing and aggregation lemmas -/

theorem dget_dappend {κ α : Type} [DecidableEq κ]
    (d : List (κ × List α)) (k k2 : κ) (v : α) :
    dget (dappend d k v) k2 [] = if k2 = k then dget d k2 [] ++ [v] else dget d k2 [] := by
  induction d with
  | nil =>
    by_cases h : k = k2
    · subst h
      simp [dappend, dget]
    · have h2 : ¬ (k2 = k) := fun hh => h hh.symm
      simp [dappend, dget, h, h2]
  | cons p ps ih =>
    by_cases hp : p.1 = k
    · simp only [dappend, if_pos hp, dget]
      by_cases h2 : p.1 = k2
      · have hkk : k2 = k := by rw [← h2, hp]
        simp [h2, hkk, dget]
      · have hk2 : ¬ (k2 = k) := fun hh => h2 (by rw [hp, hh])
        simp [h2, hk2, dget]
    · simp only [dappend, if_neg hp, dget]
      by_cases h2 : p.1 = k2
      · have hk2 : ¬ (k2 = k) := fun hh => hp (by rw [h2, hh])
        simp [h2, hk2, dget]
      · simp [h2, ih, dget]

theorem mem_dkeys_dappend {κ α : Type} [DecidableEq κ]
    (d : List (κ × List α)) (k k2 : κ) (v : α) :
    k2 ∈ dkeys (dappend d k v) ↔ k2 ∈ dkeys d ∨ k2 = k := by
  induction d with
  | nil => simp [dappend, dkeys, eq_comm]
  | cons p ps ih =>
    by_cases hp : p.1 = k
    · subst hp
      have hred : dappend (p :: ps) p.1 v = (p.1, p.2 ++ [v]) :: ps := by
        simp [dappend]
      rw [hred]
      simp only [dkeys, List.map_cons, List.mem_cons]
      tauto
    · simp only [dappend, if_neg hp, dkeys, List.map_cons, List.mem_cons] at ih ⊢
      rw [ih]
      tauto

theorem dkeys_dappend_nodup {κ α : Type} [DecidableEq κ]
    (d : List (κ × List α)) (k : κ) (v : α) (h : (dkeys d).Nodup) :
    (dkeys (dappend d k v)).Nodup := by
  induction d with
  | nil => simp [dappend, dkeys]
  | cons p ps ih =>
    have h2 : p.1 ∉ dkeys ps ∧ (dkeys ps).Nodup := by
      simp only [dkeys, List.map_cons] at h
      exact List.nodup_cons.mp h
    by_cases hp : p.1 = k
    · subst hp
      have hred : dappend (p :: ps) p.1 v = (p.1, p.2 ++ [v]) :: ps := by
        simp [dappend]
      rw [hred]
      simpa [dkeys] using h
    · simp only [dappend, if_neg hp, dkeys, List.map_cons, List.nodup_cons]
      constructor
      · intro hmem
        rcases (mem_dkeys_dappend ps k p.1 v).mp hmem with hmem | hmem
        · exact h2.1 hmem
        · exact hp hmem
      · exact ih h2.2

theorem buckets_fold_dget (os : List (ET × Mat)) (nt : String) :
    ∀ acc, dget (os.foldl (fun d p => dappend d p.1.2.2 p.2) acc) nt []
      = dget acc nt [] ++ (os.filter (fun p => p.1.2.2 = nt)).map Prod.snd := by
  induction os with
  | nil => intro acc; simp
  | cons p rest ih =>
    intro acc
    simp only [List.foldl_cons]
    rw [ih, dget_dappend]
    by_cases h : nt = p.1.2.2
    · subst h
      simp [List.filter_cons, List.append_assoc]
    · have h2 : ¬ (p.1.2.2 = nt) := fun hh => h hh.symm
      simp [h, h2, List.filter_cons]

theorem buckets_dget (os : List (ET × Mat)) (nt : String) :
    dget (buckets os) nt [] = (os.filter (fun p => p.1.2.2 = nt)).map Prod.snd := by
  have h := buckets_fold_dget os nt []
  simpa [buckets] using h

theorem buckets_fold_mem_keys (os : List (ET × Mat)) (nt : String) :
    ∀ acc, nt ∈ dkeys (os.foldl (fun d p => dappend d p.1.2.2 p.2) acc)
      ↔ nt ∈ dkeys acc ∨ nt ∈ os.map (fun p => p.1.2.2) := by
  induction os with
  | nil => intro acc; simp
  | cons p rest ih =>
    intro acc
    simp only [List.foldl_cons, List.map_cons, List.mem_cons]
    rw [ih, mem_dkeys_dappend]
    tauto

theorem mem_buckets_keys (os : List (ET × Mat)) (nt : String) :
    nt ∈ dkeys (buckets os) ↔ nt ∈ os.map (fun p => p.1.2.2) := by
  have h := buckets_fold_mem_keys os nt []
  simpa [buckets, dkeys] using h

theorem buckets_fold_nodup (os : List (ET × Mat)) :
    ∀ acc, (dkeys acc).Nodup →
      (dkeys (os.foldl (fun d p => dappend d p.1.2.2 p.2) acc)).Nodup := by
  induction os with
  | nil => intro acc h; exact h
  | cons p rest ih =>
    intro acc h
    simp only [List.foldl_cons]
    exact ih _ (dkeys_dappend_nodup acc _ _ h)

theorem buckets_keys_nodup (os : List (ET × Mat)) : (dkeys (buckets os)).Nodup :=
  buckets_fold_nodup os [] (by simp [dkeys])

theorem buckets_val (os : List (ET × Mat)) (nt : String) (vs : List Mat)
    (h : (nt, vs) ∈ buckets os) :
    vs = (os.filter (fun p => p.1.2.2 = nt)).map Prod.snd ∧ vs ≠ [] := by
  have hv : dget (buckets os) nt [] = vs :=
    dget_of_mem_nodup _ _ _ _ (buckets_keys_nodup os) h
  rw [buckets_dget] at hv
  have hk : nt ∈ dkeys (buckets os) := by
    simp only [dkeys, List.mem_map]
    exact ⟨(nt, vs), h, rfl⟩
  obtain ⟨p, hp, hpd⟩ := List.mem_map.mp ((mem_buckets_keys os nt).mp hk)
  refine ⟨hv.symm, ?_⟩
  intro hnil
  rw [hnil] at hv
  have hpf : p ∈ os.filter (fun p => p.1.2.2 = nt) :=
    List.mem_filter.mpr ⟨hp, by simp [hpd]⟩
  have : (p : ET × Mat).2 ∈ (os.filter (fun p => p.1.2.2 = nt)).map Prod.snd :=
    List.mem_map.mpr ⟨p, hpf, rfl⟩
  rw [hv] at this
  simp at this

theorem groupSpec_single_sum (t : Mat) : groupSpec [t] "sum" = .ok t := by
  simp [groupSpec]

theorem matScale_one (m : Mat) : matScale 1 m = m := by
  cases m with
  | mk r c data => simp [matScale]

theorem groupSpec_single_mean (t : Mat) : groupSpec [t] "mean" = .ok t := by
  simp [groupSpec, matScale_one]

theorem groupSpec_ok_of_valid (xs : List Mat) (aggr : String) (hxs : xs ≠ [])
    (hagg : aggr = "sum" ∨ aggr = "mean" ∨ aggr = "min" ∨ aggr = "max") :
    ∃ g, groupSpec xs aggr = .ok g := by
  cases xs with
  | nil => exact absurd rfl hxs
  | cons x rest =>
    rcases hagg with h | h | h | h <;> subst h <;> exact ⟨_, rfl⟩

theorem groupMapM_char (aggr : String) :
    ∀ (bs : List (String × List Mat)) (out : List (String × Mat)),
      (bs.mapM fun p => do
        let g ← groupSpec p.2 aggr
        pure (p.1, g)) = .ok out →
      dkeys out = dkeys bs ∧
      ∀ p ∈ bs, ∃ g, groupSpec p.2 aggr = .ok g ∧ (p.1, g) ∈ out := by
  intro bs
  induction bs with
  | nil =>
    intro out h
    simp only [List.mapM_nil, pure, Except.pure] at h
    cases h
    exact ⟨rfl, by simp⟩
  | cons p rest ih =>
    intro out h
    rw [List.mapM_cons] at h
    cases hg : groupSpec p.2 aggr with
    | error s =>
      rw [hg] at h
      simp only [bind, Except.bind] at h
      exact absurd h (by simp)
    | ok g =>
      rw [hg] at h
      cases hrest : List.mapM (fun p => do
          let g ← groupSpec p.2 aggr
          pure (p.1, g)) rest with
      | error s =>
        rw [hrest] at h
        simp only [bind, Except.bind, pure, Except.pure] at h
        exact absurd h (by simp)
      | ok out0 =>
        rw [hrest] at h
        simp only [bind, Except.bind, pure, Except.pure] at h
        have hout : out = (p.1, g) :: out0 := (Except.ok.inj h).symm
        subst hout
        obtain ⟨hk0, hq0⟩ := ih out0 hrest
        constructor
        · simp only [dkeys, List.map_cons, List.cons.injEq, true_and]
          exact hk0
        · intro q hq
          rcases List.mem_cons.mp hq with hq | hq
          · subst hq
            exact ⟨g, hg, List.mem_cons_self _ _⟩
          · obtain ⟨g2, hg2, hmem⟩ := hq0 q hq
            exact ⟨g2, hg2, List.mem_cons_of_mem _ hmem⟩

theorem groupMapM_ok (aggr : String) :
    ∀ (bs : List (String × List Mat)),
      (∀ p ∈ bs, ∃ g, groupSpec p.2 aggr = .ok g) →
      ∃ out, (bs.mapM fun p => do
        let g ← groupSpec p.2 aggr
        pure (p.1, g)) = .ok out := by
  intro bs
  induction bs with
  | nil => intro _; exact ⟨[], rfl⟩
  | cons p rest ih =>
    intro h
    obtain ⟨g, hg⟩ := h p (List.mem_cons_self p rest)
    obtain ⟨out0, hout0⟩ := ih (fun q hq => h q (List.mem_cons_of_mem p hq))
    refine ⟨(p.1, g) :: out0, ?_⟩
    rw [List.mapM_cons, hg, hout0]
    simp [bind, Except.bind, pure, Except.pure]

theorem mapMPair_keys {α β γ : Type} (f : α × β → Except String γ) :
    ∀ (l : List (α × β)) (out : List (α × γ)),
      (l.mapM fun p => do
        let o ← f p
        pure (p.1, o)) = .ok out →
      out.map Prod.fst = l.map Prod.fst := by
  intro l
  induction l with
  | nil =>
    intro out h
    simp only [List.mapM_nil, pure, Except.pure] at h
    cases h
    rfl
  | cons p rest ih =>
    intro out h
    rw [List.mapM_cons] at h
    cases hf : f p with
    | error s =>
      rw [hf] at h
      simp only [bind, Except.bind] at h
      exact absurd h (by simp)
    | ok o =>
      rw [hf] at h
      cases hrest : List.mapM (fun p => do
          let o ← f p
          pure (p.1, o)) rest with
      | error s =>
        rw [hrest] at h
        simp only [bind, Except.bind, pure, Except.pure] at h
        exact absurd h (by simp)
      | ok out0 =>
        rw [hrest] at h
        simp only [bind, Except.bind, pure, Except.pure] at h
        have hout : out = (p.1, o) :: out0 := (Except.ok.inj h).symm
        subst hout
        simp only [List.map_cons, List.cons.injEq, true_and]
        exact ih out0 hrest

theorem relOutsOf_keys (mha : MhaArgs → Mat) (L : Layer) (x_dict : List (String × Mat))
    (eidx : List (ET × List (Nat × Nat))) (os : List (ET × Mat))
    (h : relOutsOf mha L x_dict eidx = .ok os) :
    os.map Prod.fst = eidx.map Prod.fst := by
  simp only [relOutsOf, bind, Except.bind] at h
  split at h
  · exact absurd h (by simp)
  · split at h
    · exact absurd h (by simp)
    · rename_i sp hsp
      exact mapMPair_keys (fun p => relOut mha L x_dict sp.1 sp.2 p.1 p.2) eidx os h

/-- `relOutsOf` never reads the aggregation name. -/
theorem relOutsOf_set_aggr (mha : MhaArgs → Mat) (L : Layer)
    (x_dict : List (String × Mat)) (eidx : List (ET × List (Nat × Nat))) (a : String) :
    relOutsOf mha { L with aggr := a } x_dict eidx = relOutsOf mha L x_dict eidx := rfl

theorem filter_fst_length {κ β γ : Type} (q : κ → Bool) :
    ∀ (l1 : List (κ × β)) (l2 : List (κ × γ)), l1.map Prod.fst = l2.map Prod.fst →
      (l1.filter (fun p => q p.1)).length = (l2.filter (fun p => q p.1)).length := by
  intro l1
  induction l1 with
  | nil =>
    intro l2 h
    cases l2 with
    | nil => rfl
    | cons p2 l2' => simp at h
  | cons p l1' ih =>
    intro l2 h
    cases l2 with
    | nil => simp at h
    | cons p2 l2' =>
      simp only [List.map_cons, List.cons.injEq] at h
      obtain ⟨hfst, hrest⟩ := h
      by_cases hq : q p2.1
      · rw [List.filter_cons, List.filter_cons, hfst, if_pos hq, if_pos hq]
        simp only [List.length_cons]
        rw [ih l2' hrest]
      · rw [List.filter_cons, List.filter_cons, hfst, if_neg hq, if_neg hq]
        exact ih l2' hrest

/-- C6: per-relation outputs are bucketed per destination node type in
the edge-type iteration order of the input `edge_index_dict`; each bucket
is reduced with the configured aggregation into exactly one tensor per
destination node type that received at least one relation's output; a
node type with no incoming relation in the call is absent from the
output dict. -/
theorem C6_aggregate (mha : MhaArgs → Mat) (L : Layer) (x_dict : List (String × Mat))
    (eidx : List (ET × List (Nat × Nat))) (os : List (ET × Mat))
    (hos : relOutsOf mha L x_dict eidx = .ok os)
    (hagg : L.aggr = "sum" ∨ L.aggr = "mean" ∨ L.aggr = "min" ∨ L.aggr = "max") :
    ∃ out, forward mha L x_dict eidx = .ok out ∧
      (∀ nt, nt ∈ dkeys out ↔ nt ∈ eidx.map (fun p => p.1.2.2)) ∧
      (∀ nt, nt ∈ eidx.map (fun p => p.1.2.2) →
        ∃ g, dgetE out nt = .ok g ∧
          groupSpec ((os.filter (fun p => p.1.2.2 = nt)).map Prod.snd) L.aggr = .ok g) ∧
      (∀ nt, nt ∉ eidx.map (fun p => p.1.2.2) → dgetE out nt = .error "KeyError") := by
  have hkeq := relOutsOf_keys mha L x_dict eidx os hos
  have hdst : os.map (fun p => p.1.2.2) = eidx.map (fun p => p.1.2.2) := by
    have h1 : os.map (fun p => p.1.2.2)
        = (os.map Prod.fst).map (fun e : ET => e.2.2) := by
      simp [List.map_map]
    rw [h1, hkeq]
    simp [List.map_map]
  have hgo : ∀ p ∈ buckets os, ∃ g, groupSpec p.2 L.aggr = .ok g := by
    intro p hp
    obtain ⟨_, hne⟩ := buckets_val os p.1 p.2 hp
    exact groupSpec_ok_of_valid p.2 L.aggr hne hagg
  obtain ⟨out, hout⟩ := groupMapM_ok L.aggr (buckets os) hgo
  obtain ⟨hko, hqo⟩ := groupMapM_char L.aggr (buckets os) out hout
  have hfwd : forward mha L x_dict eidx = .ok out := by
    simp only [forward, bind, Except.bind]
    rw [hos]
    exact hout
  refine ⟨out, hfwd, ?_, ?_, ?_⟩
  · intro nt
    rw [hko, mem_buckets_keys, hdst]
  · intro nt hmem
    have hmemb : nt ∈ dkeys (buckets os) := by
      rw [mem_buckets_keys, hdst]
      exact hmem
    have hpair : (nt, dget (buckets os) nt []) ∈ buckets os :=
      mem_of_mem_dkeys _ _ _ hmemb
    obtain ⟨g, hg, hmemo⟩ := hqo _ hpair
    refine ⟨g, ?_, ?_⟩
    · have hnd_out : (dkeys out).Nodup := by
        rw [hko]; exact buckets_keys_nodup os
      have hmemk : nt ∈ dkeys out := by rw [hko]; exact hmemb
      rw [dgetE_eq_dget out nt g hmemk, dget_of_mem_nodup out nt g g hnd_out hmemo]
    · rw [← buckets_dget]
      exact hg
  · intro nt hmem
    apply dgetE_error_of_not_mem
    rw [hko, mem_buckets_keys, hdst]
    exact hmem

/-- C8: a destination node type that receives output from exactly one
relation gets the same aggregated result whether the layer is configured
with `aggr="sum"` or `aggr="mean"` (reduction of a one-element list is
invariant under the choice of reduction). -/
theorem C8_single_relation_aggr_invariance (mha : MhaArgs → Mat) (L : Layer)
    (x_dict : List (String × Mat)) (eidx : List (ET × List (Nat × Nat)))
    (nt : String) (out1 : List (String × Mat))
    (hsum : forward mha { L with aggr := "sum" } x_dict eidx = .ok out1)
    (hone : (eidx.filter (fun p => p.1.2.2 = nt)).length = 1) :
    ∃ out2, forward mha { L with aggr := "mean" } x_dict eidx = .ok out2 ∧
      dgetE out1 nt = dgetE out2 nt := by
  simp only [forward, bind, Except.bind] at hsum
  split at hsum
  · exact absurd hsum (by simp)
  · rename_i os hos
    have hosL : relOutsOf mha L x_dict eidx = .ok os := by
      rw [← relOutsOf_set_aggr mha L x_dict eidx "sum"]
      exact hos
    have hos2 : relOutsOf mha { L with aggr := "mean" } x_dict eidx = .ok os := by
      rw [relOutsOf_set_aggr]
      exact hosL
    have hsum2 : ((buckets os).mapM fun p => do
        let g ← groupSpec p.2 "sum"
        pure (p.1, g)) = .ok out1 := hsum
    obtain ⟨hk1, hq1⟩ := groupMapM_char "sum" (buckets os) out1 hsum2
    have hkeq := relOutsOf_keys mha L x_dict eidx os hosL
    have hcnt : (os.filter (fun p => p.1.2.2 = nt)).length = 1 := by
      have := filter_fst_length (fun e : ET => decide (e.2.2 = nt)) os eidx hkeq
      rw [this]
      exact hone
    obtain ⟨b, hb⟩ := List.length_eq_one.mp hcnt
    have hbmem : b ∈ os.filter (fun p => p.1.2.2 = nt) := by
      rw [hb]
      exact List.mem_cons_self b []
    have hbos : b ∈ os := List.mem_of_mem_filter hbmem
    have hbd : b.1.2.2 = nt := by simpa using List.of_mem_filter hbmem
    have hntb : nt ∈ dkeys (buckets os) := by
      rw [mem_buckets_keys]
      exact List.mem_map.mpr ⟨b, hbos, hbd⟩
    have hbucket : dget (buckets os) nt [] = [b.2] := by
      rw [buckets_dget, hb]
      rfl
    have hpair : (nt, [b.2]) ∈ buckets os := by
      have := mem_of_mem_dkeys (buckets os) nt [] hntb
      rw [hbucket] at this
      exact this
    obtain ⟨g1, hg1, hmem1⟩ := hq1 (nt, [b.2]) hpair
    have hg1v : b.2 = g1 := Except.ok.inj ((groupSpec_single_sum b.2).symm.trans hg1)
    have hgo : ∀ p ∈ buckets os, ∃ g, groupSpec p.2 "mean" = .ok g := by
      intro p hp
      exact groupSpec_ok_of_valid p.2 "mean" (buckets_val os p.1 p.2 hp).2
        (Or.inr (Or.inl rfl))
    obtain ⟨out2, hout2⟩ := groupMapM_ok "mean" (buckets os) hgo
    obtain ⟨hk2, hq2⟩ := groupMapM_char "mean" (buckets os) out2 hout2
    obtain ⟨g2, hg2, hmem2⟩ := hq2 (nt, [b.2]) hpair
    have hg2v : b.2 = g2 := Except.ok.inj ((groupSpec_single_mean b.2).symm.trans hg2)
    refine ⟨out2, ?_, ?_⟩
    · simp only [forward, bind, Except.bind]
      rw [hos2]
      exact hout2
    · have hnd1 : (dkeys out1).Nodup := by rw [hk1]; exact buckets_keys_nodup os
      have hnd2 : (dkeys out2).Nodup := by rw [hk2]; exact buckets_keys_nodup os
      have hmemk1 : nt ∈ dkeys out1 := by rw [hk1]; exact hntb
      have hmemk2 : nt ∈ dkeys out2 := by rw [hk2]; exact hntb
      rw [dgetE_eq_dget out1 nt b.2 hmemk1, dgetE_eq_dget out2 nt b.2 hmemk2,
          dget_of_mem_nodup out1 nt g1 b.2 hnd1 hmem1,
          dget_of_mem_nodup out2 nt g2 b.2 hnd2 hmem2, ← hg1v, ← hg2v]

/-- Witness for C6 on a concrete forward pass over `L0`. -/
theorem C6_aggregate_witness :
    ∃ out, forward (fun _ => Mat.mk 2 1 [[0], [0]]) L0 [("A", Mat.mk 2 1 [[1], [2]])]
        [(("A", "r", "A"), [(0, 1)])] = .ok out ∧
      (∀ nt, nt ∈ dkeys out ↔
        nt ∈ [(("A", "r", "A"), [(0, 1)])].map (fun p => p.1.2.2)) ∧
      (∀ nt, nt ∈ [(("A", "r", "A"), [(0, 1)])].map (fun p => p.1.2.2) →
        ∃ g, dgetE out nt = .ok g ∧
          groupSpec (([(("A", "r", "A"), Mat.mk 2 1 [[0], [0]])].filter
            (fun p => p.1.2.2 = nt)).map Prod.snd) L0.aggr = .ok g) ∧
      (∀ nt, nt ∉ [(("A", "r", "A"), [(0, 1)])].map (fun p => p.1.2.2) →
        dgetE out nt = .error "KeyError") := by
  exact C6_aggregate (fun _ => Mat.mk 2 1 [[0], [0]]) L0 [("A", Mat.mk 2 1 [[1], [2]])]
    [(("A", "r", "A"), [(0, 1)])] [(("A", "r", "A"), Mat.mk 2 1 [[0], [0]])]
    (by with_unfolding_all decide) (Or.inl rfl)

/-- Witness for C8 on a concrete forward pass over `L0`. -/
theorem C8_single_relation_aggr_invariance_witness :
    ∃ out2, forward (fun _ => Mat.mk 2 1 [[0], [0]]) { L0 with aggr := "mean" }
        [("A", Mat.mk 2 1 [[1], [2]])] [(("A", "r", "A"), [(0, 1)])] = .ok out2 ∧
      dgetE [("A", Mat.mk 2 1 [[0], [0]])] "A" = dgetE out2 "A" := by
  exact C8_single_relation_aggr_invariance (fun _ => Mat.mk 2 1 [[0], [0]]) L0
    [("A", Mat.mk 2 1 [[1], [2]])] [(("A", "r", "A"), [(0, 1)])] "A"
    [("A", Mat.mk 2 1 [[0], [0]])]
    (by with_unfolding_all decide) (by decide)

/-- C9: whenever `split_tensors` succeeds, both returned dicts are keyed
by exactly the edge types given at construction; every edge type whose
source equals its destination has `x_dst_dict` entry `None`; and every
edge type whose relevant node type is absent from the input fused dict
keeps its `None` entry rather than raising. -/
theorem C9_split_invariant (L : Layer) (d : List (String × Mat)) (dim : Nat) (ws wd : OD)
    (h : split_tensors L d dim = .ok (ws, wd)) :
    dkeys ws = L.edge_types ∧ dkeys wd = L.edge_types ∧
    (∀ e, e.1 = e.2.2 → dget wd e none = none) ∧
    (∀ e, e.1 ∉ dkeys d → dget ws e none = none) ∧
    (∀ e, e.2.2 ∉ dkeys d → dget wd e none = none) :=
  split_tensors_ok_inv L d dim ws wd h

/-- Witness for C9 on a concrete split over `L0`. -/
theorem C9_split_invariant_witness :
    dkeys [(("A", "r", "A"), some (Mat.mk 2 1 [[-327/128], [-327/64]]))] = L0.edge_types ∧
    dkeys [(("A", "r", "A"), (none : Option Mat))] = L0.edge_types ∧
    (∀ e, e.1 = e.2.2 →
      dget [(("A", "r", "A"), (none : Option Mat))] e none = none) ∧
    (∀ e, e.1 ∉ dkeys [("A", Mat.mk 2 1 [[-327/128], [-327/64]])] →
      dget [(("A", "r", "A"), some (Mat.mk 2 1 [[-327/128], [-327/64]]))] e none = none) ∧
    (∀ e, e.2.2 ∉ dkeys [("A", Mat.mk 2 1 [[-327/128], [-327/64]])] →
      dget [(("A", "r", "A"), (none : Option Mat))] e none = none) := by
  exact C9_split_invariant L0 [("A", Mat.mk 2 1 [[-327/128], [-327/64]])] 1
    [(("A", "r", "A"), some (Mat.mk 2 1 [[-327/128], [-327/64]]))]
    [(("A", "r", "A"), none)]
    (by with_unfolding_all decide)

/-! ### Characterization of `reset_parameters` -/

theorem attnGlorot_ok_eq (s : Nat) (v : List ℚ) (h o : Nat) (p : List ℚ × Nat)
    (hp : attnGlorot s v h o = .ok p) :
    p = glorotFill s v.length (6 / ((h : ℚ) + (o : ℚ))) := by
  by_cases h1 : h * o = 0
  · simp only [attnGlorot, if_pos h1] at hp
    exact absurd hp (by simp)
  · by_cases h2 : v.length % (h * o) ≠ 0
    · simp only [attnGlorot, if_neg h1, if_pos h2] at hp
      exact absurd hp (by simp)
    · simp only [attnGlorot, if_neg h1, if_neg h2] at hp
      exact (Except.ok.inj hp).symm

theorem resetStep_ok_decomp (L : Layer) (st : RState) (e : ET) (st1 : RState)
    (h : resetStep L st e = .ok st1) :
    ∃ r av ag,
      dgetE st.attn e = .ok av ∧
      attnGlorot r av L.num_heads L.out_channels = .ok ag ∧
      st1.attn = dset st.attn e ag.1 ∧
      ((st.bias = none ∧ st1.bias = none) ∨
        (∃ bd bv, st.bias = some bd ∧ dgetE bd e = .ok bv ∧
          st1.bias = some (dset bd e (zerosOpt bv)))) := by
  simp only [resetStep, bind, Except.bind, pure, Except.pure] at h
  split at h
  · exact absurd h (by simp)
  · rename_i c hc
    split at h
    · exact absurd h (by simp)
    · rename_i wdrng hwdrng
      split at h
      · exact absurd h (by simp)
      · rename_i av hav
        split at h
        · exact absurd h (by simp)
        · rename_i ag hag
          split at h
          · exact absurd h (by simp)
          · rename_i bias1 hbias
            have hinj := Except.ok.inj h
            split at hbias
            · rename_i hsb
              have hb1 : bias1 = none := (Except.ok.inj hbias).symm
              exact ⟨_, av, ag, hav, hag, by rw [← hinj],
                Or.inl ⟨hsb, by rw [← hinj, hb1]⟩⟩
            · rename_i bd hsb
              split at hbias
              · exact absurd hbias (by simp)
              · rename_i bv hbv
                have hb1 : bias1 = some (dset bd e (zerosOpt bv)) :=
                  (Except.ok.inj hbias).symm
                exact ⟨_, av, ag, hav, hag, by rw [← hinj],
                  Or.inr ⟨bd, bv, hsb, hbv, by rw [← hinj, hb1]⟩⟩

theorem glorotFill_length (count : Nat) : ∀ (s : Nat) (c : ℚ),
    (glorotFill s count c).1.length = count := by
  induction count with
  | zero => intro s c; rfl
  | succ n ih => intro s c; simp only [glorotFill, List.length_cons, ih]

theorem resetFold_attn (L : Layer) (es : List ET) :
    ∀ (st0 st : RState), List.foldlM (resetStep L) st0 es = .ok st →
      ∀ e : ET,
        (e ∉ es → dgetE st.attn e = dgetE st0.attn e) ∧
        (e ∈ es → ∃ r av, dgetE st0.attn e = .ok av ∧
          dgetE st.attn e = .ok ((glorotFill r av.length
            (6 / ((L.num_heads : ℚ) + (L.out_channels : ℚ)))).1)) := by
  induction es with
  | nil =>
    intro st0 st h e
    simp only [List.foldlM_nil, pure, Except.pure] at h
    cases h
    exact ⟨fun _ => rfl, fun he => absurd he (List.not_mem_nil e)⟩
  | cons a tl ih =>
    intro st0 st h e
    rw [List.foldlM_cons] at h
    cases h1 : resetStep L st0 a with
    | error s =>
      rw [h1] at h
      simp only [bind, Except.bind] at h
      exact absurd h (by simp)
    | ok st1 =>
      rw [h1] at h
      simp only [bind, Except.bind] at h
      obtain ⟨r0, av0, ag0, hav0, hag0, hattn1, _⟩ := resetStep_ok_decomp L st0 a st1 h1
      have hag0e := attnGlorot_ok_eq _ _ _ _ _ hag0
      constructor
      · intro hne
        have hna : e ≠ a := fun hh => hne (hh ▸ List.mem_cons_self a tl)
        have hntl : e ∉ tl := fun hh => hne (List.mem_cons_of_mem a hh)
        rw [(ih st1 st h e).1 hntl, hattn1, dgetE_dset_ne st0.attn a e ag0.1 hna]
      · intro hmem
        by_cases hetl : e ∈ tl
        · obtain ⟨r1, av1, hav1, hres⟩ := (ih st1 st h e).2 hetl
          by_cases hea : e = a
          · subst hea
            rw [hattn1, dgetE_dset_self] at hav1
            have hv : av1 = ag0.1 := (Except.ok.inj hav1).symm
            have hlen : av1.length = av0.length := by
              rw [hv, hag0e, glorotFill_length]
            refine ⟨r1, av0, hav0, ?_⟩
            rw [← hlen]
            exact hres
          · rw [hattn1, dgetE_dset_ne st0.attn a e ag0.1 hea] at hav1
            exact ⟨r1, av1, hav1, hres⟩
        · have hea : e = a := by
            rcases List.mem_cons.mp hmem with hh | hh
            · exact hh
            · exact absurd hh hetl
          subst hea
          have hst : dgetE st.attn e = dgetE st1.attn e := (ih st1 st h e).1 hetl
          rw [hattn1, dgetE_dset_self] at hst
          refine ⟨r0, av0, hav0, ?_⟩
          rw [hst, hag0e]

theorem resetFold_bias (L : Layer) (es : List ET) :
    ∀ (st0 st : RState), List.foldlM (resetStep L) st0 es = .ok st →
      (st0.bias = none → st.bias = none) ∧
      (∀ bd0, st0.bias = some bd0 → ∃ bd, st.bias = some bd ∧
        ∀ e : ET, (e ∉ es → dgetE bd e = dgetE bd0 e) ∧
          (e ∈ es → ∃ v, dgetE bd e = .ok (zerosOpt v))) := by
  induction es with
  | nil =>
    intro st0 st h
    simp only [List.foldlM_nil, pure, Except.pure] at h
    cases h
    exact ⟨fun hn => hn, fun bd0 hb => ⟨bd0, hb, fun e =>
      ⟨fun _ => rfl, fun he => absurd he (List.not_mem_nil e)⟩⟩⟩
  | cons a tl ih =>
    intro st0 st h
    rw [List.foldlM_cons] at h
    cases h1 : resetStep L st0 a with
    | error s =>
      rw [h1] at h
      simp only [bind, Except.bind] at h
      exact absurd h (by simp)
    | ok st1 =>
      rw [h1] at h
      simp only [bind, Except.bind] at h
      obtain ⟨r0, av0, ag0, hav0, hag0, hattn1, hbias⟩ := resetStep_ok_decomp L st0 a st1 h1
      obtain ⟨ihn, ihs⟩ := ih st1 st h
      constructor
      · intro hn
        rcases hbias with ⟨h0, h1b⟩ | ⟨bd, bv, h0, hbv, h1b⟩
        · exact ihn h1b
        · rw [hn] at h0
          exact Option.noConfusion h0
      · intro bd0 hb
        rcases hbias with ⟨h0, h1b⟩ | ⟨bd, bv, h0, hbv, h1b⟩
        · rw [hb] at h0
          exact Option.noConfusion h0
        · have hbd : bd = bd0 := Option.some.inj (h0.symm.trans hb)
          subst hbd
          obtain ⟨bd2, hbd2, hprop⟩ := ihs (dset bd a (zerosOpt bv)) h1b
          refine ⟨bd2, hbd2, fun e => ⟨?_, ?_⟩⟩
          · intro hne
            have hna : e ≠ a := fun hh => hne (hh ▸ List.mem_cons_self a tl)
            have hntl : e ∉ tl := fun hh => hne (List.mem_cons_of_mem a hh)
            rw [(hprop e).1 hntl, dgetE_dset_ne bd a e (zerosOpt bv) hna]
          · intro hmem
            by_cases hetl : e ∈ tl
            · exact (hprop e).2 hetl
            · have hea : e = a := by
                rcases List.mem_cons.mp hmem with hh | hh
                · exact hh
                · exact absurd hh hetl
              subst hea
              refine ⟨bv, ?_⟩
              rw [(hprop e).1 hetl, dgetE_dset_self]

theorem reset_attn_char (L : Layer) (rng : Nat) (seed : Option Nat) (L2 : Layer) (r : Nat)
    (h : reset_parameters L rng seed = .ok (L2, r)) (e : ET) (he : e ∈ L.edge_types) :
    ∃ s av, dgetE L.attn_weights e = .ok av ∧
      dgetE L2.attn_weights e = .ok ((glorotFill s av.length
        (6 / ((L.num_heads : ℚ) + (L.out_channels : ℚ)))).1) := by
  simp only [reset_parameters, bind, Except.bind, pure, Except.pure] at h
  split at h
  · exact absurd h (by simp)
  · split at h
    · exact absurd h (by simp)
    · rename_i st hst
      have hinj := Except.ok.inj h
      have hattn : L2.attn_weights = st.attn :=
        (congrArg (fun p => Layer.attn_weights (Prod.fst p)) hinj).symm
      obtain ⟨s, av, hav, hres⟩ := (resetFold_attn L L.edge_types _ st hst e).2 he
      refine ⟨s, av, hav, ?_⟩
      rw [hattn]
      exact hres

theorem reset_bias_char (L : Layer) (rng : Nat) (seed : Option Nat) (L2 : Layer) (r : Nat)
    (h : reset_parameters L rng seed = .ok (L2, r)) :
    (L.bias = none → L2.bias = none) ∧
    (∀ bd0, L.bias = some bd0 → ∃ bd, L2.bias = some bd ∧
      ∀ e ∈ L.edge_types, ∃ v, dgetE bd e = .ok (zerosOpt v)) := by
  simp only [reset_parameters, bind, Except.bind, pure, Except.pure] at h
  split at h
  · exact absurd h (by simp)
  · split at h
    · exact absurd h (by simp)
    · rename_i st hst
      have hinj := Except.ok.inj h
      have hbias : L2.bias = st.bias :=
        (congrArg (fun p => Layer.bias (Prod.fst p)) hinj).symm
      obtain ⟨hn, hs⟩ := resetFold_bias L L.edge_types _ st hst
      constructor
      · intro h0
        rw [hbias]
        exact hn h0
      · intro bd0 hb
        obtain ⟨bd, hbd, hprop⟩ := hs bd0 hb
        exact ⟨bd, by rw [hbias]; exact hbd, fun e he => (hprop e).2 he⟩

/-- Modelled from the spec: the claim reads the attention vector as reshaped
to `(heads, out_channels, 2)`, so glorot on that tensor would use fan
`size(-2) + size(-1) = out_channels + 2`, and the reshape needs exactly
`heads * out_channels * 2` entries. -/
def attnGlorotSpec (s : Nat) (v : List ℚ) (h o : Nat) : Except String (List ℚ × Nat) :=
  if v.length ≠ h * o * 2 then .error "shape invalid for input size"
  else .ok (glorotFill s v.length (6 / ((o : ℚ) + 2)))

/-- Modelled from the spec: the `reset_parameters` loop body with the
claim's reading of the attention reshape (everything else as in the code). -/
def resetStepSpec (L : Layer) (st : RState) (e : ET) : Except String RState := do
  let c ← dgetE st.ws e
  let g1 := glorotOpt st.rng c
  let ws := dset st.ws e g1.1
  let wdrng ←
    (if e.1 ≠ e.2.2 then do
      let cd ← dgetE st.wd e
      let g2 := glorotOpt g1.2 cd
      pure (dset st.wd e g2.1, g2.2)
    else pure (st.wd, g1.2))
  let av ← dgetE st.attn e
  let ag ← attnGlorotSpec wdrng.2 av L.num_heads L.out_channels
  let attn := dset st.attn e ag.1
  let bias ←
    (match st.bias with
    | none => pure none
    | some bd => do
      let bv ← dgetE bd e
      pure (some (dset bd e (zerosOpt bv))))
  pure ⟨ws, wdrng.1, attn, bias, ag.2⟩

/-- Modelled from the spec: `reset_parameters` built on `resetStepSpec`. -/
def reset_parametersSpec (L : Layer) (rng : Nat) (seed : Option Nat) :
    Except String (Layer × Nat) := do
  let rng0 := match seed with | some s => manualSeed s | none => rng
  let sp ← split_tensors L L.lin_weights 0
  let st ← L.edge_types.foldlM (resetStepSpec L)
    (RState.mk sp.1 sp.2 L.attn_weights L.bias rng0)
  let lin := L.lin_weights.map fun p =>
    (p.1, Mat.mk p.2.nrows p.2.ncols (reassembleData L.edge_types st.ws st.wd p.1))
  pure ({ L with lin_weights := lin, attn_weights := st.attn, bias := st.bias }, st.rng)

/-- C5 counterexample: on a 1-head, 1-out-channel layer the code's view
`(-1, heads, out_channels)` gives fan `heads + out_channels = 2` (draw scale
`6/2`), while the reshape `(heads, out_channels, 2)` the claim describes
would give fan `out_channels + 2 = 3` (draw scale `6/3`); resetting the same
layer from the same seed yields different attention values. -/
theorem C5_attn_reshape_counterexample :
    reset_parameters L0 0 (some 0) ≠ reset_parametersSpec L0 0 (some 0) := by
  with_unfolding_all decide

/-- C5 (amended): in reset, for every edge type the attention-parameter
vector (of length `2 * heads * out_channels`) is initialized with the
variance-scaling scheme applied to the vector viewed as
`(-1, heads, out_channels)`, so the fan that determines the variance of the
draw is `heads + out_channels` — not `out_channels + 2` as the claim's
reshape `(heads, out_channels, 2)` would give
(`C5_attn_reshape_counterexample` separates the two on a concrete layer). -/
theorem C5_attn_variance
    (pv : Nat × Nat × Nat) (ic : InCh) (oc : Nat) (nts : List String) (ets : List ET)
    (heads : Nat) (concat : Bool) (ns : ℚ) (bias : Bool) (aggr : String) (rng : Nat)
    (L : Layer) (r : Nat)
    (h : initLayer pv ic oc nts ets heads concat ns bias aggr rng = .ok (L, r))
    (e : ET) (he : e ∈ ets) :
    ∃ s, dgetE L.attn_weights e =
      .ok ((glorotFill s (2 * heads * oc) (6 / ((heads : ℚ) + (oc : ℚ)))).1) := by
  by_cases hv : verLt pv (2, 4, 0) = true
  · simp only [initLayer, hv, if_true, throw, throwThe, MonadExceptOf.throw, bind,
      Except.bind] at h
    exact absurd h (by simp)
  · simp only [initLayer, hv, if_false, Bool.false_eq_true, ite_false, bind,
      Except.bind, pure, Except.pure] at h
    split at h
    · exact absurd h (by simp)
    · rename_i lin hlin
      obtain ⟨s, av, hav, hres⟩ := reset_attn_char _ rng none L r h e he
      have hav2 : dgetE (ets.map fun e0 =>
          (e0, List.replicate (2 * heads * oc) (0 : ℚ))) e
          = .ok (List.replicate (2 * heads * oc) (0 : ℚ)) :=
        dgetE_const_map ets _ e he
      have hveq : av = List.replicate (2 * heads * oc) (0 : ℚ) :=
        (Except.ok.inj (hav2.symm.trans hav)).symm
      refine ⟨s, ?_⟩
      rw [hveq, List.length_replicate] at hres
      exact hres

/-- Witness for `C5_attn_variance` at a concrete construction: the layer
`L0` (one node type, one same-type relation, 1 head, 1 out channel). -/
theorem C5_attn_variance_witness :
    ∃ s, dgetE L0.attn_weights ("A", "r", "A") =
      .ok ((glorotFill s (2 * 1 * 1) (6 / (((1 : Nat) : ℚ) + ((1 : Nat) : ℚ)))).1) :=
  C5_attn_variance (2, 4, 0) (InCh.int 1) 1 ["A"] [("A", "r", "A")] 1 true (1/5) true
    "sum" 0 L0 109 initLayer_L0 ("A", "r", "A") (by decide)

/-- The first scalar of the first fused weight of a reset result
(`0` when the reset raised or the layer is degenerate); used to separate
results produced from different seeds. -/
def firstVal : Except String (Layer × Nat) → ℚ
  | .error _ => 0
  | .ok p =>
    match p.1.lin_weights with
    | [] => 0
    | q :: _ =>
      match q.2.data with
      | [] => 0
      | row :: _ =>
        match row with
        | [] => 0
        | x :: _ => x

/-- On `L0`, the first fused-weight scalar after a seeded reset is the first
glorot draw: scale `6 / (1 + 1)` times the first post-seed generator
output, mapped affinely into `(-scale, scale)`. -/
theorem resetL0_firstVal (s : Nat) :
    firstVal (reset_parameters L0 0 (some s)) =
      6 / (((1 : Nat) : ℚ) + ((1 : Nat) : ℚ)) *
        (2 * ((rngNext (s % 256) : Nat) : ℚ) / ((256 : Nat) : ℚ) - 1) := by
  with_unfolding_all rfl

theorem rngNext_inj (a b : Nat) (ha : a < 256) (hb : b < 256)
    (h : rngNext a = rngNext b) : a = b := by
  have h2 : 37 * a + 19 ≡ 37 * b + 19 [MOD 256] := h
  have h3 : 37 * a ≡ 37 * b [MOD 256] := Nat.ModEq.add_right_cancel' 19 h2
  have h4 : a ≡ b [MOD 256] := Nat.ModEq.cancel_left_of_coprime (by decide) h3
  have h5 : a % 256 = b % 256 := h4
  rw [Nat.mod_eq_of_lt ha, Nat.mod_eq_of_lt hb] at h5
  exact h5

theorem drawVal_inj (r1 r2 : Nat)
    (h : 6 / (((1 : Nat) : ℚ) + ((1 : Nat) : ℚ)) * (2 * (r1 : ℚ) / ((256 : Nat) : ℚ) - 1)
       = 6 / (((1 : Nat) : ℚ) + ((1 : Nat) : ℚ)) * (2 * (r2 : ℚ) / ((256 : Nat) : ℚ) - 1)) :
    r1 = r2 := by
  have h2 : (r1 : ℚ) = (r2 : ℚ) := by
    push_cast at h
    have h6 : (6 : ℚ) / (1 + 1) ≠ 0 := by norm_num
    have h3 := mul_left_cancel₀ h6 h
    have h4 : 2 * (r1 : ℚ) / 256 = 2 * (r2 : ℚ) / 256 := by linarith
    field_simp at h4
    linarith
  exact_mod_cast h2

/-- C7: (1) a seeded reset is deterministic — whatever the incoming
generator state, the same seed yields the identical layer (every parameter
tensor bit-identical); (2) after any successful reset every bias entry is
all zeros (`None` stays `None`); (3) on the layer `L0`, any two distinct
seeds below the generator modulus yield different results (here provably
always, standing in for the claim's "with overwhelming probability"). -/
theorem C7_seed_determinism :
    (∀ (L : Layer) (r1 r2 s : Nat),
      reset_parameters L r1 (some s) = reset_parameters L r2 (some s)) ∧
    (∀ (L : Layer) (rng : Nat) (seed : Option Nat) (L2 : Layer) (r : Nat),
      reset_parameters L rng seed = .ok (L2, r) →
      (L.bias = none → L2.bias = none) ∧
      (∀ bd0, L.bias = some bd0 → ∃ bd, L2.bias = some bd ∧
        ∀ e ∈ L.edge_types, ∃ v, dgetE bd e = .ok v ∧
          (v = none ∨ ∃ n, v = some (List.replicate n (0 : ℚ))))) ∧
    (∀ s1 s2 : Nat, s1 < 256 → s2 < 256 → s1 ≠ s2 →
      reset_parameters L0 0 (some s1) ≠ reset_parameters L0 0 (some s2)) := by
  refine ⟨fun L r1 r2 s => rfl, ?_, ?_⟩
  · intro L rng seed L2 r h
    obtain ⟨hn, hs⟩ := reset_bias_char L rng seed L2 r h
    refine ⟨hn, ?_⟩
    intro bd0 hb
    obtain ⟨bd, hbd, hprop⟩ := hs bd0 hb
    refine ⟨bd, hbd, ?_⟩
    intro e he
    obtain ⟨v0, hv0⟩ := hprop e he
    cases v0 with
    | none => exact ⟨none, hv0, Or.inl rfl⟩
    | some l => exact ⟨some (List.replicate l.length 0), hv0, Or.inr ⟨l.length, rfl⟩⟩
  · intro s1 s2 hs1 hs2 hne heq
    apply hne
    have hv : firstVal (reset_parameters L0 0 (some s1))
        = firstVal (reset_parameters L0 0 (some s2)) := by rw [heq]
    rw [resetL0_firstVal, resetL0_firstVal] at hv
    have hr := drawVal_inj _ _ hv
    have hmm := rngNext_inj (s1 % 256) (s2 % 256)
      (Nat.mod_lt s1 (by decide)) (Nat.mod_lt s2 (by decide)) hr
    rw [Nat.mod_eq_of_lt hs1, Nat.mod_eq_of_lt hs2] at hmm
    exact hmm

/-- Witness for `C7_seed_determinism`: seeds `0` and `1` give different
results on `L0`. -/
theorem C7_seed_determinism_witness :
    reset_parameters L0 0 (some 0) ≠ reset_parameters L0 0 (some 1) :=
  C7_seed_determinism.2.2 0 1 (by decide) (by decide) (by decide)

/-- The process-global generator state a reset leaves behind (`none` when
the reset raised). -/
def rngOf : Except String (Layer × Nat) → Option Nat
  | .error _ => none
  | .ok p => some p.2

/-- C10: a seeded reset overwrites the process-global generator before
drawing — the state it leaves (seen by all later draws in the process) is a
function of the seed alone, independent of the incoming state; an unseeded
reset consumes the incoming global state instead (on `L0` its three draws
advance the generator three steps from the incoming state); concretely, on
`L0` the seeded reset leaves three steps from `manualSeed 5` and not three
steps from the incoming state `7`. -/
theorem C10_global_rng_effect :
    (∀ (L : Layer) (r1 r2 s : Nat),
      rngOf (reset_parameters L r1 (some s)) = rngOf (reset_parameters L r2 (some s))) ∧
    (∀ r : Nat, rngOf (reset_parameters L0 r none)
      = some (rngNext (rngNext (rngNext r)))) ∧
    (rngOf (reset_parameters L0 7 (some 5))
        = some (rngNext (rngNext (rngNext (manualSeed 5)))) ∧
      rngOf (reset_parameters L0 7 (some 5))
        ≠ some (rngNext (rngNext (rngNext 7)))) := by
  refine ⟨fun L r1 r2 s => rfl, fun r => ?_, ?_, ?_⟩
  · with_unfolding_all rfl
  · with_unfolding_all rfl
  · with_unfolding_all decide

end HeteroGAT
